import Mathlib

/-
Verification of the E2E reader (oct_converter/readers/e2e.py) against its
natural-language specification.

The development shallowly embeds the reader's pure logic:
- Python integers are ℤ/ℕ; Python true division (`/`) is exact division in ℚ;
  `int(...)` is truncation toward zero (`pyInt`); `%` on numbers with a
  positive right operand is the floor-convention remainder (`pyMod` on ℚ,
  `Int.emod` on ℤ).
- Python (insertion-ordered) dicts are association lists (`dget`/`dinsert`).
- Fallible operations (binary parses, `datetime.date` construction) return
  `Option`/`Except`; the structures parsed by the external `construct`
  library (module oct_converter.readers.binary_structs, not part of the
  sources here) are modelled abstractly from the specification.
-/

namespace E2E

/-! ### Ordered dictionaries (Python `dict` model)

A Python dict preserves insertion order; assigning to an existing key keeps
its position, assigning to a fresh key appends it. -/

def dget {κ α : Type} [DecidableEq κ] : List (κ × α) → κ → Option α
  | [], _ => none
  | (k', v) :: rest, k => if k' = k then some v else dget rest k

def dinsert {κ α : Type} [DecidableEq κ] : List (κ × α) → κ → α → List (κ × α)
  | [], k, v => [(k, v)]
  | (k', v') :: rest, k, v =>
    if k' = k then (k, v) :: rest else (k', v') :: dinsert rest k v

def dkeys {κ α : Type} (d : List (κ × α)) : List κ := d.map (·.1)

/-! ### Python numeric primitives -/

/-- Python `int(x)` on an exact rational value: truncation toward zero.
For a rational `q` in lowest terms this is the truncating division of the
numerator by the (positive) denominator. -/
def pyInt (q : ℚ) : ℤ := Int.tdiv q.num q.den

/-- Python `x % y` for a positive right operand `y` (used on floats in
`julian_to_ymd`): the floor-convention remainder `x - floor(x/y)*y`. -/
def pyMod (x y : ℚ) : ℚ := x - (⌊x / y⌋ : ℤ) * y

/-! ### Custom float codec (e2e.py, `uint16_to_ufloat16`, lines 654-676)

`bits = "{0:016b}".format(uint16)[::-1]` produces the 16 bits most
significant first and then reverses them; `bits16 c` is the 16-character
string before the reversal, as a list of booleans. `int(s, 2)` reads a bit
string most significant bit first (`bitsToNat`). -/

def bits16 (c : ℕ) : List Bool :=
  [c.testBit 15, c.testBit 14, c.testBit 13, c.testBit 12,
   c.testBit 11, c.testBit 10, c.testBit 9, c.testBit 8,
   c.testBit 7, c.testBit 6, c.testBit 5, c.testBit 4,
   c.testBit 3, c.testBit 2, c.testBit 1, c.testBit 0]

def bitsToNat (bs : List Bool) : ℕ := bs.foldl (fun acc b => 2 * acc + b.toNat) 0

/-- e2e.py `uint16_to_ufloat16` (lines 654-676): reverse the 16 bits, the
first 10 reversed bits read MSB-first are the mantissa, the remaining 6 are
reversed once more (`exponent = exponent[::-1]`, line 670) before being read
as the exponent; `self.power = 2^10 = 1024`. The result is exact in float64,
so the value is modelled in ℚ. -/
def uint16_to_ufloat16 (c : ℕ) : ℚ :=
  let bits := (bits16 c).reverse
  let mantissa := bits.take 10
  let exponent := (bits.drop 10).reverse
  let mantissa_sum : ℚ := 1 + (bitsToNat mantissa : ℚ) / 1024
  let exponent_sum : ℤ := (bitsToNat exponent : ℤ) - 63
  mantissa_sum * (2 : ℚ) ^ exponent_sum

/-- e2e.py `_make_lut` (lines 84-90): the dense table of
`uint16_to_ufloat16 i` for `i in range(2^16)`. -/
def make_lut : List ℚ := (List.range (2 ^ 16)).map uint16_to_ufloat16

/-- The decoding formula exactly as the specification words it (§4.4): read
the 16 bits in natural order, reverse them, take the first 10 reversed bits
as the mantissa and **the remaining 6 as the exponent** — i.e. the substring
`bits[10:]` read the same way the mantissa substring is read (MSB first),
with no second reversal. -/
def spec_ufloat16 (c : ℕ) : ℚ :=
  let bits := (bits16 c).reverse
  let mantissa := bits.take 10
  let exponent := bits.drop 10
  (1 + (bitsToNat mantissa : ℚ) / 1024) * (2 : ℚ) ^ ((bitsToNat exponent : ℤ) - 63)

/-- Value of the low 10 bits of `n` read in reversed (LSB-of-`n`-first) order:
bit `i` of `n` contributes `2^(9-i)`. -/
def bitRev10 (n : ℕ) : ℕ :=
  (List.range 10).foldl (fun acc i => acc + (if n.testBit i then 2 ^ (9 - i) else 0)) 0

/-- The amended bit-layout formula: mantissa = bit-reversal of the 10 low
bits of `c`; exponent = the 6 high bits of `c` in natural order (the spec's
"remaining 6" must be reversed a second time before being read, matching
line 670 of the source). -/
def amended_ufloat16 (c : ℕ) : ℚ :=
  (1 + (bitRev10 (c % 1024) : ℚ) / 1024) * (2 : ℚ) ^ (((c / 1024 : ℕ) : ℤ) - 63)

/-! ### Intensity transform (e2e.py, `vol_intensity_transform`, lines 678-693)

Pixel values are floats; the transform is modelled over ℝ (`np.log` is the
natural logarithm). `selection_0` and `selection_data` are computed on the
input, `data[selection_data]` is replaced first, then `data[selection_0]`
is zeroed, then the whole array is clipped to `[0, 1]`; per element this is
the function below. -/

/-- The largest finite value of a 32-bit IEEE float, `np.finfo(np.float32).max`,
as an exact real constant. -/
noncomputable def maxFloat32 : ℝ := (2 - (2 : ℝ) ^ (-23 : ℤ)) * 2 ^ (127 : ℕ)

/-- `np.clip(x, 0, 1)` on a real value. -/
noncomputable def clip01 (x : ℝ) : ℝ := min 1 (max 0 x)

/-- e2e.py `vol_intensity_transform` (lines 678-693), per array element. -/
noncomputable def vol_intensity_transform (v : ℝ) : ℝ :=
  let v1 := if v ≤ 1 then (Real.log (v + 2.44e-4) + 8.3) / 8.285 else v
  let v2 := if v = maxFloat32 then 0 else v1
  clip01 v2

/-! ### Date codec (e2e.py, `julian_to_ymd`, lines 695-723)

The Python function is called with a float argument (`birthdate / 64 -
14558805`); modelling exact real arithmetic, the argument is a rational.
The arithmetic constants `y=4716, j=1401, m=2, n=12, r=4, p=1461, v=3, u=5,
s=153, w=2, B=274277, C=-38` are inlined as numerals below.  Each Python
`int(...)` is a `pyInt` (truncation toward zero); `%` with the positive
moduli 1461, 153, 12 is `pyMod` on rationals and `Int.emod` on integers. -/

/-- e2e.py `julian_to_ymd` (lines 695-723): the raw (Y, M, D) triple computed
by the arithmetic transform, before `date(Y, M, D)` is constructed.
Line-by-line: `f = J + j + int(((int((4*J + B)/146097))*3)/4) + C`,
`e = r*f + v`, `g = int((e % p)/r)`, `h = u*g + w`,
`D = int((h % s)/u) + 1`, `M = ((int(h/s) + m) % n) + 1`,
`Y = int(e/p) - y + int((n + m - M)/n)`. -/
def julian_to_ymd (J : ℚ) : ℤ × ℤ × ℤ :=
  let f : ℚ := J + 1401 + ((pyInt ((((pyInt ((4 * J + 274277) / 146097)) * 3 : ℤ) : ℚ) / 4) : ℤ) : ℚ) + (-38)
  let e : ℚ := 4 * f + 3
  let g : ℤ := pyInt (pyMod e 1461 / 4)
  let h : ℤ := 5 * g + 2
  let D : ℤ := pyInt (((h % 153 : ℤ) : ℚ) / 5) + 1
  let M : ℤ := (pyInt ((h : ℚ) / 153) + 2) % 12 + 1
  let Y : ℤ := pyInt (e / 1461) - 4716 + pyInt (((14 - M : ℤ) : ℚ) / 12)
  (Y, M, D)

/-- `julian_to_ymd` specialised to an integer argument: the same transform
with every `int(../..)` realised as a truncating integer division.  (For an
integer input every intermediate quotient argument is an integer, so this
agrees with `julian_to_ymd` — proved below.) -/
def julianInt (J : ℤ) : ℤ × ℤ × ℤ :=
  let f := J + 1401 + Int.tdiv (Int.tdiv (4 * J + 274277) 146097 * 3) 4 + (-38)
  let e := 4 * f + 3
  let g := Int.tdiv (e % 1461) 4
  let h := 5 * g + 2
  let D := Int.tdiv (h % 153) 5 + 1
  let M := (Int.tdiv h 153 + 2) % 12 + 1
  let Y := Int.tdiv e 1461 - 4716 + Int.tdiv (14 - M) 12
  (Y, M, D)

/-- The reference Julian-day-to-Gregorian transform as the specification
states it (§4.7): the same constants with **integer floor division at each
step** (`Int.fdiv`; the remainders are taken with the positive moduli 1461,
153 and 12, where the floor convention is `Int.emod`). -/
def julianRef (J : ℤ) : ℤ × ℤ × ℤ :=
  let f := J + 1401 + Int.fdiv (Int.fdiv (4 * J + 274277) 146097 * 3) 4 + (-38)
  let e := 4 * f + 3
  let g := Int.fdiv (e % 1461) 4
  let h := 5 * g + 2
  let D := Int.fdiv (h % 153) 5 + 1
  let M := (Int.fdiv h 153 + 2) % 12 + 1
  let Y := Int.fdiv e 1461 - 4716 + Int.fdiv (14 - M) 12
  (Y, M, D)

/-! ### Python `datetime.date` validity

`date(Y, M, D)` (CPython) succeeds exactly when `1 <= Y <= 9999`,
`1 <= M <= 12` and `1 <= D <= days_in_month(Y, M)` (proleptic Gregorian
leap rule); otherwise it raises `ValueError`. -/

def isLeapYear (y : ℤ) : Bool :=
  (y % 4 = 0 && y % 100 ≠ 0) || y % 400 = 0

def daysInMonth (y m : ℤ) : ℤ :=
  if m = 2 then (if isLeapYear y then 29 else 28)
  else if m = 4 ∨ m = 6 ∨ m = 9 ∨ m = 11 then 30
  else 31

def isValidDate (y m d : ℤ) : Bool :=
  1 ≤ y && y ≤ 9999 && 1 ≤ m && m ≤ 12 && 1 ≤ d && d ≤ daysInMonth y m

/-- The Python call `date(*julian_to_ymd-triple)`: `some` triple when the
triple is a constructible date, `none` when `date(Y, M, D)` raises
`ValueError`. -/
def julianDate (J : ℚ) : Option (ℤ × ℤ × ℤ) :=
  let t := julian_to_ymd J
  if isValidDate t.1 t.2.1 t.2.2 then some t else none

/-! ### Patient records and birthdate decoding

The type-9 decoder state (`self.sex`, `self.first_name`, `self.surname`,
`self.birthdate`, `self.patient_id`). Field payloads other than the raw
birthdate are opaque (ℕ). The `patient_id_structure` parse is part of
binary_structs (external to these sources); a successfully parsed record is
modelled as a `PatientData` value, with the raw birthdate field an unsigned
integer per the specification ("the raw 8-byte integer field"). -/

inductive Birthdate
  | ymd (s : String)            -- recorded directly from an 8-digit raw value
  | date (d : ℤ × ℤ × ℤ)        -- a `datetime.date` from the Julian route
deriving DecidableEq

structure PatientData where
  sex : ℕ
  first_name : ℕ
  surname : ℕ
  patient_id : ℕ
  birthdate_raw : ℕ
deriving DecidableEq

structure PatState where
  sex : Option ℕ
  first_name : Option ℕ
  surname : Option ℕ
  birthdate : Option Birthdate
  patient_id : Option ℕ
deriving DecidableEq

/-- e2e.py `read_oct_volume`, type-9 branch, birthdate policy (lines
149-167): if `str(patient_data.birthdate)` has exactly 8 characters (for an
unsigned field, 8 digits) record it directly; otherwise compute
`julian = birthdate/64 - 14558805` (Python true division) and convert with
`julian_to_ymd`; on `ValueError` (the triple is not a constructible date)
record `None`. Total — no exception reaches the caller. -/
def oct_decode_birthdate (raw : ℕ) : Option Birthdate :=
  if (toString raw).length = 8 then some (Birthdate.ymd (toString raw))
  else
    match julianDate ((raw : ℚ) / 64 - 14558805) with
    | some d => some (Birthdate.date d)
    | none => none

/-- e2e.py `read_oct_volume`, type-9 branch (lines 141-169): on a
successfully parsed patient record all of sex, first name, surname and
patient id are overwritten (patient id on line 148, before the birthdate
logic), and the birthdate is set by the dual-heuristic policy. -/
def octPatientUpdate (st : PatState) (pd : PatientData) : PatState :=
  let _ := st
  { sex := some pd.sex
    first_name := some pd.first_name
    surname := some pd.surname
    patient_id := some pd.patient_id
    birthdate := oct_decode_birthdate pd.birthdate_raw }

/-- e2e.py `read_fundus_image`, type-9 branch (lines 376-387): the
assignments run in order `sex`, `first_name`, `surname`, then
`julian_to_ymd` is called (there is no 8-digit branch here); if
`date(Y, M, D)` raises, the bare `except Exception: pass` aborts the
remaining assignments, so `birthdate` and `patient_id` keep their previous
values while the three fields already assigned stay overwritten. -/
def fundusPatientUpdate (st : PatState) (pd : PatientData) : PatState :=
  match julianDate ((pd.birthdate_raw : ℚ) / 64 - 14558805) with
  | some d =>
    { sex := some pd.sex
      first_name := some pd.first_name
      surname := some pd.surname
      birthdate := some (Birthdate.date d)
      patient_id := some pd.patient_id }
  | none =>
    { st with
      sex := some pd.sex
      first_name := some pd.first_name
      surname := some pd.surname }

/-! ### Directory walker (e2e.py, `E2E.__init__`, lines 28-65)

The 52-byte main-directory records are parsed by
`e2e_binary.main_directory_structure` (binary_structs, external to these
sources). Modelled from the spec: a record holds `current` and `prev`
back-pointers; parsing raises a `construct.StreamError` when the 52 bytes
cannot be read/decoded (e.g. a truncated read past end of file) — nothing
in `__init__` catches it. `recAt off` is the record obtained by seeking to
`off + byte_skip` and parsing, `none` meaning the parse raises. -/

structure MainDirRec where
  current : ℕ
  prev : ℕ
deriving DecidableEq

inductive InitError
  | fileNotFound   -- `FileNotFoundError` raised on line 31
  | parseError     -- an uncaught `construct` parse error
deriving DecidableEq

/-- The `while current != 0` loop of `__init__` (lines 59-65): append
`current` to the stack, parse the record at `current`, continue from its
`prev`. `fuel` bounds the number of iterations modelled; `none` means the
loop has not finished within `fuel` steps. -/
def dirWalk (recAt : ℕ → Option MainDirRec) : ℕ → ℕ → Option (Except InitError (List ℕ))
  | 0, current => if current = 0 then some (Except.ok []) else none
  | fuel + 1, current =>
    if current = 0 then some (Except.ok [])
    else
      match recAt current with
      | none => some (Except.error InitError.parseError)
      | some r => (dirWalk recAt fuel r.prev).map (fun res => res.map (current :: ·))

/-- e2e.py `E2E.__init__` (lines 28-65): raise `FileNotFoundError` when the
path does not exist; otherwise parse the header and first main directory
(`firstRec`, `none` meaning that parse raises) and run the back-pointer
traversal from `firstRec.current`. -/
def e2e_init (fileExists : Bool) (firstRec : Option MainDirRec)
    (recAt : ℕ → Option MainDirRec) (fuel : ℕ) : Option (Except InitError (List ℕ)) :=
  if fileExists = false then some (Except.error InitError.fileNotFound)
  else
    match firstRec with
    | none => some (Except.error InitError.parseError)
    | some md => dirWalk recAt fuel md.current

/-- A (finite, terminating) directory chain under `recAt`: a nonempty list
of offsets in which every offset is nonzero and carries a record, each
record's `prev` is the next offset, and the last record's `prev` is 0. -/
def Chain (recAt : ℕ → Option MainDirRec) : List ℕ → Prop
  | [] => False
  | [c] => c ≠ 0 ∧ ∃ r, recAt c = some r ∧ r.prev = 0
  | c :: c2 :: rest => c ≠ 0 ∧ (∃ r, recAt c = some r ∧ r.prev = c2) ∧ Chain recAt (c2 :: rest)

/-! ### Chunk dispatcher error handling (e2e.py, `read_oct_volume`, lines 130-285)

Each iteration of the `for start, pos in chunk_stack` loop is classified by
its outcome; the classification abstracts the 60-byte header parse and the
per-type payload handling of the source:
- `headerBad`: `chunk_structure.parse` raises — caught, `continue` (133-139);
- `patientBad`: type 9 payload parse raises — caught, `pass` (168-169);
- `bscanBad`: type 10004 payload parse raises — **not** inside any
  `try`, the exception propagates out of `read_oct_volume` (172-173);
- `contourBad`: type 10019 float payload unreadable — caught, warning,
  unit skipped (225-234);
- `imageBad`: image buffer cannot be reshaped — caught, warning, unit
  skipped (256-265);
- `imageZero`: image chunk with `height*width == 0` — `break` ends the
  whole loop early, returning what was decoded so far (246-247);
- `good p`: a unit that decodes successfully, contributing payload `p`. -/

inductive VolumeChunk
  | headerBad
  | patientBad
  | bscanBad
  | contourBad
  | imageBad
  | imageZero
  | good (p : ℕ)
deriving DecidableEq

/-- The dispatcher loop over classified chunks: accumulates decoded
payloads and a warning count; `Except.error ()` models an exception
escaping `read_oct_volume`. -/
def volumePass : List VolumeChunk → List ℕ → ℕ → Except Unit (List ℕ × ℕ)
  | [], acc, warn => Except.ok (acc, warn)
  | VolumeChunk.headerBad :: rest, acc, warn => volumePass rest acc warn
  | VolumeChunk.patientBad :: rest, acc, warn => volumePass rest acc warn
  | VolumeChunk.bscanBad :: _, _, _ => Except.error ()
  | VolumeChunk.contourBad :: rest, acc, warn => volumePass rest acc (warn + 1)
  | VolumeChunk.imageBad :: rest, acc, warn => volumePass rest acc (warn + 1)
  | VolumeChunk.imageZero :: _, acc, warn => Except.ok (acc, warn)
  | VolumeChunk.good p :: rest, acc, warn => volumePass rest (acc ++ [p]) warn

def dispatchVolume (cs : List VolumeChunk) : Except Unit (List ℕ × ℕ) :=
  volumePass cs [] 0

/-- The payload of a successfully decoded unit. -/
def goodPayload : VolumeChunk → Option ℕ
  | VolumeChunk.good p => some p
  | _ => none

/-- Chunks that produce a non-fatal warning (contour read / image reshape). -/
def isWarning : VolumeChunk → Bool
  | VolumeChunk.contourBad => true
  | VolumeChunk.imageBad => true
  | _ => false

/-! ### Volume assembler (e2e.py, `read_oct_volume`, lines 92-329)

The directory pass is driven by the 44-byte sub-directory entries; the
chunk pass by the OCT image chunks (`chunk.type == 1073741824`,
`chunk.ind == 1`) that decode successfully (header parsed, LUT applied,
buffer reshaped).  The decoded 2-D image itself is opaque (ℕ).  The series
key string `"{patient_db_id}_{study_id}_{series_id}"` is modelled as the
triple itself (the formatting of the three integers is injective). -/

abbrev SeriesKey := ℕ × ℕ × ℕ

structure SubDirEntry where
  patient_db_id : ℕ
  study_id : ℕ
  series_id : ℕ
  slice_id : ℤ
  start : ℤ
  pos : ℤ
  size : ℕ
deriving DecidableEq

def SubDirEntry.key (e : SubDirEntry) : SeriesKey :=
  (e.patient_db_id, e.study_id, e.series_id)

structure OCTChunk where
  key : SeriesKey
  slice_id : ℤ
  image : ℕ
deriving DecidableEq

/-- The Python list index `int(chunk.slice_id / 2)` of an image chunk
(line 274).  (`toNat`: the faithful domain has `slice_id ≥ 0`, see the
hypotheses of the assembler theorem.) -/
def chunkIdx (c : OCTChunk) : ℕ := (pyInt ((c.slice_id : ℚ) / 2)).toNat

/-- Lines 104-110: `volume_dict` maps each series key to the maximum
`chunk.slice_id / 2` (Python true division — a half-integer) seen in the
directory pass, keys in first-seen order. -/
def volumeDictStep (d : List (SeriesKey × ℚ)) (ent : SubDirEntry) : List (SeriesKey × ℚ) :=
  let ns : ℚ := (ent.slice_id : ℚ) / 2
  match dget d ent.key with
  | none => dinsert d ent.key ns
  | some m => if ns > m then dinsert d ent.key ns else d

def volumeDict (entries : List SubDirEntry) : List (SeriesKey × ℚ) :=
  entries.foldl volumeDictStep []

/-- Lines 122-125: allocate `[0] * int(num_slices + 1)` placeholder slots,
but only for series keys with `num_slices > 0`.  A placeholder `0` (an
`int`, later stripped by `isinstance(slc, int)`) is `none`; a decoded image
is `some`. -/
def allocVolumes : List (SeriesKey × ℚ) → List (SeriesKey × List (Option ℕ))
  | [] => []
  | kv :: rest =>
    if kv.2 > 0 then
      (kv.1, List.replicate (pyInt (kv.2 + 1)).toNat (none : Option ℕ)) :: allocVolumes rest
    else allocVolumes rest

/-- Lines 272-285: a decoded image chunk is written into its series' slot
at `int(slice_id / 2)` when the series key was allocated, and appended to
the per-key overflow list `volume_array_dict_additional` otherwise.
(`List.set` out of range is a no-op; Python would raise `IndexError` there —
the assembler theorem's hypotheses restrict to indices in range, where the
two agree.) -/
def chunkStep (st : List (SeriesKey × List (Option ℕ)) × List (SeriesKey × List ℕ))
    (c : OCTChunk) : List (SeriesKey × List (Option ℕ)) × List (SeriesKey × List ℕ) :=
  match dget st.1 c.key with
  | some lst => (dinsert st.1 c.key (lst.set (chunkIdx c) (some c.image)), st.2)
  | none =>
    match dget st.2 c.key with
    | some imgs => (st.1, dinsert st.2 c.key (imgs ++ [c.image]))
    | none => (st.1, dinsert st.2 c.key [c.image])

/-- Lines 304-311: `volume = [slc for slc in volume if not isinstance(slc, int)]`
(drop never-written placeholders) and skip empty volumes. -/
def stripVolumes : List (SeriesKey × List (Option ℕ)) → List (SeriesKey × List ℕ)
  | [] => []
  | kv :: rest =>
    let s := kv.2.filterMap id
    if s = [] then stripVolumes rest else (kv.1, s) :: stripVolumes rest

/-- e2e.py `read_oct_volume` (lines 92-329) restricted to the volume
assembly the claim is about: the returned association of series keys to
slice lists (`chain(volume_array_dict, volume_array_dict_additional)`;
overflow lists contain no `int` placeholders, so the strip keeps them
whole). -/
def read_oct_volume_model (entries : List SubDirEntry) (chunks : List OCTChunk) :
    List (SeriesKey × List ℕ) :=
  let vad0 := allocVolumes (volumeDict entries)
  let st := chunks.foldl chunkStep (vad0, [])
  stripVolumes st.1 ++ st.2

/-- The image written last at slot `i` of series `k` (later writes
overwrite earlier ones), if any. -/
def lastWriteAt (chunks : List OCTChunk) (k : SeriesKey) (i : ℕ) : Option ℕ :=
  chunks.foldl (fun acc c => if c.key = k ∧ chunkIdx c = i then some c.image else acc) none

/-- All decoded images of series `k`, in order of appearance. -/
def chunkImages (chunks : List OCTChunk) (k : SeriesKey) : List ℕ :=
  (chunks.filter (fun c => c.key = k)).map (·.image)

/-- The slice list the source produces for series `k` (amended behaviour):
keys whose directory maximum is positive get the placeholder treatment
(slots in index order, unwritten slots dropped); keys never seen in the
directory pass **or seen only with maximum `slice_id/2 ≤ 0`** collect their
images in order of appearance. -/
def expectedSlices (entries : List SubDirEntry) (chunks : List OCTChunk) (k : SeriesKey) :
    List ℕ :=
  match dget (volumeDict entries) k with
  | some m =>
    if m > 0 then (List.range (pyInt (m + 1)).toNat).filterMap (lastWriteAt chunks k)
    else chunkImages chunks k
  | none => chunkImages chunks k

/-- The slice list the claim predicts for series `k`: **every** key seen in
the directory pass gets the placeholder treatment, and only keys never seen
there fall into the appearance-ordered overflow. -/
def claimSlices (entries : List SubDirEntry) (chunks : List OCTChunk) (k : SeriesKey) :
    List ℕ :=
  match dget (volumeDict entries) k with
  | some m => (List.range (pyInt (m + 1)).toNat).filterMap (lastWriteAt chunks k)
  | none => chunkImages chunks k

/-! ### Fundus image grouping (e2e.py, `read_fundus_image`, lines 403-428)

A stored key is the base series key with some number of `"_"` characters
appended (`image_string = image_string + "_"` in the disambiguation loop);
since the formatted base keys always end in a digit, the string
`base ++ "_"*n` is modelled as the pair `(base, n)`. -/

abbrev FundusKey := SeriesKey × ℕ

/-- The `while is_in_keys` loop (lines 422-426): append `"_"` (increment
the suffix count), exit as soon as the key is fresh.  `fuel` bounds the
iterations; `d.length + 1` steps always suffice (proved below). -/
def disambiguate (d : List (FundusKey × ℕ)) (k : SeriesKey) : ℕ → ℕ → ℕ
  | 0, n => n + 1
  | fuel + 1, n =>
    if (dget d (k, n + 1)).isSome then disambiguate d k fuel (n + 1) else n + 1

/-- Lines 415-428: store a decoded fundus image; when the base key is
taken and `extract_scan_repeats` is set, store under the first fresh
`"_"`-suffixed key, otherwise assign (overwriting) the base key. -/
def fundusImageInsert (extract : Bool) (d : List (FundusKey × ℕ))
    (k : SeriesKey) (img : ℕ) : List (FundusKey × ℕ) :=
  if (dget d (k, 0)).isSome && extract then
    dinsert d (k, disambiguate d k (d.length + 1) 0) img
  else dinsert d (k, 0) img

/-! ### Auxiliary functions used to state and prove the assembler claim -/

/-- The halved slice ids (`slice_id / 2`, Python true division) of the
directory entries carrying series key `k`, in order. -/
def halfList (entries : List SubDirEntry) (k : SeriesKey) : List ℚ :=
  (entries.filter (fun ent => ent.key = k)).map (fun ent => (ent.slice_id : ℚ) / 2)

/-- One step of Python max-tracking: seed on first value, replace on a
strictly greater value. -/
def pymax (acc : Option ℚ) (x : ℚ) : Option ℚ :=
  match acc with
  | none => some x
  | some m => if x > m then some x else some m

/-- The slot writes that the chunk pass performs on the placeholder list of
series `k`, in stream order. -/
def applyWrites (chunks : List OCTChunk) (k : SeriesKey) (lst : List (Option ℕ)) :
    List (Option ℕ) :=
  chunks.foldl (fun l c => if c.key = k then l.set (chunkIdx c) (some c.image) else l) lst

/-! ## Lemmas: ordered dictionaries -/

section DictLemmas

variable {κ α : Type} [DecidableEq κ]

theorem dget_dinsert_self (d : List (κ × α)) (k : κ) (v : α) :
    dget (dinsert d k v) k = some v := by
  induction d with
  | nil => simp [dget, dinsert]
  | cons kv rest ih =>
    by_cases h : kv.1 = k
    · simp [dget, dinsert, h]
    · simpa [dget, dinsert, h] using ih

theorem dget_dinsert_ne (d : List (κ × α)) (k k' : κ) (v : α) (h : k' ≠ k) :
    dget (dinsert d k v) k' = dget d k' := by
  have h' : ¬(k = k') := fun hh => h hh.symm
  induction d with
  | nil => simp [dget, dinsert, h']
  | cons kv rest ih =>
    by_cases hk : kv.1 = k
    · subst hk
      simp [dget, dinsert, h']
    · by_cases hk' : kv.1 = k'
      · simp [dget, dinsert, hk, hk', h]
      · simpa [dget, dinsert, hk, hk'] using ih

theorem length_dinsert_isSome (d : List (κ × α)) (k : κ) (v : α)
    (h : (dget d k).isSome) : (dinsert d k v).length = d.length := by
  induction d with
  | nil => simp [dget] at h
  | cons kv rest ih =>
    by_cases hk : kv.1 = k
    · simp [dinsert, hk]
    · simp only [dget, hk, if_false] at h
      simpa [dinsert, hk] using ih h

theorem length_dinsert_none (d : List (κ × α)) (k : κ) (v : α)
    (h : dget d k = none) : (dinsert d k v).length = d.length + 1 := by
  induction d with
  | nil => simp [dinsert]
  | cons kv rest ih =>
    by_cases hk : kv.1 = k
    · simp [dget, hk] at h
    · simp only [dget, hk, if_false] at h
      simpa [dinsert, hk] using ih h

theorem dget_append (d₁ d₂ : List (κ × α)) (k : κ) :
    dget (d₁ ++ d₂) k = match dget d₁ k with
      | some v => some v
      | none => dget d₂ k := by
  induction d₁ with
  | nil => simp [dget]
  | cons kv rest ih =>
    by_cases hk : kv.1 = k
    · simp [dget, hk]
    · simpa [dget, hk] using ih

theorem dget_eq_none_iff (d : List (κ × α)) (k : κ) :
    dget d k = none ↔ k ∉ dkeys d := by
  induction d with
  | nil => simp [dget, dkeys]
  | cons kv rest ih =>
    by_cases hk : kv.1 = k
    · simp [dget, dkeys, hk]
    · rw [show dget (kv :: rest) k = dget rest k by simp [dget, hk], ih]
      have hne : k ≠ kv.1 := fun hcontra => hk hcontra.symm
      simp [dkeys, hne]

theorem dkeys_dinsert_isSome (d : List (κ × α)) (k : κ) (v : α)
    (h : (dget d k).isSome) : dkeys (dinsert d k v) = dkeys d := by
  induction d with
  | nil => simp [dget] at h
  | cons kv rest ih =>
    by_cases hk : kv.1 = k
    · simp [dinsert, dkeys, hk]
    · simp only [dget, hk, if_false] at h
      rw [show dinsert (kv :: rest) k v = kv :: dinsert rest k v by simp [dinsert, hk]]
      rw [show dkeys (kv :: dinsert rest k v) = kv.1 :: dkeys (dinsert rest k v) from rfl]
      rw [ih h]
      rfl

theorem dkeys_dinsert_none (d : List (κ × α)) (k : κ) (v : α)
    (h : dget d k = none) : dkeys (dinsert d k v) = dkeys d ++ [k] := by
  induction d with
  | nil => simp [dinsert, dkeys]
  | cons kv rest ih =>
    by_cases hk : kv.1 = k
    · simp [dget, hk] at h
    · simp only [dget, hk, if_false] at h
      rw [show dinsert (kv :: rest) k v = kv :: dinsert rest k v by simp [dinsert, hk]]
      rw [show dkeys (kv :: dinsert rest k v) = kv.1 :: dkeys (dinsert rest k v) from rfl]
      rw [ih h]
      rfl

theorem dget_mem {d : List (κ × α)} {k : κ} {v : α} (h : dget d k = some v) :
    (k, v) ∈ d := by
  induction d with
  | nil => simp [dget] at h
  | cons kv rest ih =>
    by_cases hk : kv.1 = k
    · simp only [dget, hk, if_true] at h
      cases h
      subst hk
      exact List.mem_cons_self _ _
    · simp only [dget, hk, if_false] at h
      exact List.mem_cons_of_mem _ (ih h)

end DictLemmas

/-! ## Lemmas: Python numeric primitives -/

theorem pyInt_eq_floor {q : ℚ} (h : 0 ≤ q) : pyInt q = ⌊q⌋ := by
  rw [pyInt, Rat.floor_def]
  exact Int.tdiv_eq_ediv (Rat.num_nonneg.mpr h) (Int.natCast_nonneg _)

theorem pyInt_neg (q : ℚ) : pyInt (-q) = -pyInt q := by
  simp [pyInt, Rat.neg_num, Rat.neg_den, Int.neg_tdiv]

theorem pyInt_intCast_div_natCast (n : ℤ) (d : ℕ) :
    pyInt ((n : ℚ) / ((d : ℕ) : ℚ)) = Int.tdiv n d := by
  rcases le_or_lt 0 n with hn | hn
  · have hq : (0 : ℚ) ≤ (n : ℚ) / ((d : ℕ) : ℚ) :=
      div_nonneg (by exact_mod_cast hn) (by positivity)
    rw [pyInt_eq_floor hq, Rat.floor_intCast_div_natCast]
    exact (Int.tdiv_eq_ediv hn (Int.natCast_nonneg d)).symm
  · have hrw : (n : ℚ) / ((d : ℕ) : ℚ) = -(((-n : ℤ) : ℚ) / ((d : ℕ) : ℚ)) := by
      push_cast
      ring
    have hq : (0 : ℚ) ≤ ((-n : ℤ) : ℚ) / ((d : ℕ) : ℚ) :=
      div_nonneg (by exact_mod_cast (neg_nonneg.mpr hn.le)) (by positivity)
    rw [hrw, pyInt_neg, pyInt_eq_floor hq, Rat.floor_intCast_div_natCast]
    rw [(Int.tdiv_eq_ediv (neg_nonneg.mpr hn.le) (Int.natCast_nonneg d)).symm]
    simp [Int.neg_tdiv]

theorem pyInt_intCast (n : ℤ) : pyInt ((n : ℤ) : ℚ) = n := by
  simp [pyInt, Rat.num_intCast, Rat.den_intCast]

theorem pyInt_nonneg {q : ℚ} (h : 0 ≤ q) : 0 ≤ pyInt q :=
  Int.tdiv_nonneg (Rat.num_nonneg.mpr h) (Int.natCast_nonneg _)

theorem pyMod_intCast (a : ℤ) (d : ℕ) :
    pyMod ((a : ℤ) : ℚ) ((d : ℕ) : ℚ) = ((a % (d : ℤ) : ℤ) : ℚ) := by
  rw [pyMod, Rat.floor_intCast_div_natCast]
  have h : a % (d : ℤ) = a - a / (d : ℤ) * (d : ℤ) := by
    rw [Int.emod_def]
    ring
  rw [h]
  push_cast
  ring

theorem pyMod_nonneg (x : ℚ) {y : ℚ} (hy : 0 < y) : 0 ≤ pyMod x y := by
  rw [pyMod, sub_nonneg]
  calc (⌊x / y⌋ : ℚ) * y ≤ (x / y) * y := by
        exact mul_le_mul_of_nonneg_right (Int.floor_le _) hy.le
    _ = x := div_mul_cancel₀ x hy.ne.symm

/-! ## Lemmas: the date codec -/

/-- On an integer argument, the exact-arithmetic `julian_to_ymd` computes
the all-integer truncating transform. -/
theorem julian_to_ymd_intCast (J : ℤ) : julian_to_ymd ((J : ℤ) : ℚ) = julianInt J := by
  simp only [julian_to_ymd, julianInt]
  have h1 : pyInt ((4 * (J : ℚ) + 274277) / 146097) = Int.tdiv (4 * J + 274277) 146097 := by
    have e1 : (4 * (J : ℚ) + 274277) / 146097
        = ((4 * J + 274277 : ℤ) : ℚ) / ((146097 : ℕ) : ℚ) := by
      push_cast
      ring
    rw [e1, pyInt_intCast_div_natCast]
    norm_cast
  rw [h1]
  generalize Int.tdiv (4 * J + 274277) 146097 = x1
  have h2 : pyInt (((x1 * 3 : ℤ) : ℚ) / 4) = Int.tdiv (x1 * 3) 4 := by
    have e2 : ((x1 * 3 : ℤ) : ℚ) / 4 = ((x1 * 3 : ℤ) : ℚ) / ((4 : ℕ) : ℚ) := by norm_num
    rw [e2, pyInt_intCast_div_natCast]
    norm_cast
  rw [h2]
  generalize Int.tdiv (x1 * 3) 4 = x2
  have hf : (J : ℚ) + 1401 + ((x2 : ℤ) : ℚ) + (-38)
      = ((J + 1401 + x2 + (-38) : ℤ) : ℚ) := by
    push_cast
    ring
  rw [hf]
  generalize (J + 1401 + x2 + (-38) : ℤ) = fI
  have he : 4 * ((fI : ℤ) : ℚ) + 3 = ((4 * fI + 3 : ℤ) : ℚ) := by
    push_cast
    ring
  rw [he]
  generalize (4 * fI + 3 : ℤ) = eI
  have hm : pyMod ((eI : ℤ) : ℚ) 1461 = ((eI % 1461 : ℤ) : ℚ) := by
    have e3 : (1461 : ℚ) = ((1461 : ℕ) : ℚ) := by norm_num
    rw [e3, pyMod_intCast]
    norm_cast
  rw [hm]
  have hg : pyInt (((eI % 1461 : ℤ) : ℚ) / 4) = Int.tdiv (eI % 1461) 4 := by
    have e4 : ((eI % 1461 : ℤ) : ℚ) / 4 = ((eI % 1461 : ℤ) : ℚ) / ((4 : ℕ) : ℚ) := by norm_num
    rw [e4, pyInt_intCast_div_natCast]
    norm_cast
  rw [hg]
  generalize 5 * Int.tdiv (eI % 1461) 4 + 2 = hI
  have hD : pyInt (((hI % 153 : ℤ) : ℚ) / 5) = Int.tdiv (hI % 153) 5 := by
    have e5 : ((hI % 153 : ℤ) : ℚ) / 5 = ((hI % 153 : ℤ) : ℚ) / ((5 : ℕ) : ℚ) := by norm_num
    rw [e5, pyInt_intCast_div_natCast]
    norm_cast
  rw [hD]
  have hM : pyInt (((hI : ℤ) : ℚ) / 153) = Int.tdiv hI 153 := by
    have e6 : ((hI : ℤ) : ℚ) / 153 = ((hI : ℤ) : ℚ) / ((153 : ℕ) : ℚ) := by norm_num
    rw [e6, pyInt_intCast_div_natCast]
    norm_cast
  rw [hM]
  generalize (Int.tdiv hI 153 + 2) % 12 + 1 = MI
  have hY1 : pyInt (((eI : ℤ) : ℚ) / 1461) = Int.tdiv eI 1461 := by
    have e7 : ((eI : ℤ) : ℚ) / 1461 = ((eI : ℤ) : ℚ) / ((1461 : ℕ) : ℚ) := by norm_num
    rw [e7, pyInt_intCast_div_natCast]
    norm_cast
  rw [hY1]
  have hY2 : pyInt (((14 - MI : ℤ) : ℚ) / 12) = Int.tdiv (14 - MI) 12 := by
    have e8 : ((14 - MI : ℤ) : ℚ) / 12 = ((14 - MI : ℤ) : ℚ) / ((12 : ℕ) : ℚ) := by norm_num
    rw [e8, pyInt_intCast_div_natCast]
    norm_cast
  rw [hY2]

/-- For a nonnegative Julian day every truncating division in the transform
has a nonnegative dividend, so truncation agrees with floor division. -/
theorem julianInt_eq_ref {J : ℤ} (hJ : 0 ≤ J) : julianInt J = julianRef J := by
  simp only [julianInt, julianRef]
  have hx1 : (0 : ℤ) ≤ 4 * J + 274277 := by linarith
  have e1 : Int.tdiv (4 * J + 274277) 146097 = Int.fdiv (4 * J + 274277) 146097 := by
    rw [Int.tdiv_eq_ediv hx1 (by norm_num), Int.fdiv_eq_ediv _ (by norm_num)]
  rw [← e1]
  generalize hq1 : Int.tdiv (4 * J + 274277) 146097 = x1
  have hx1' : 0 ≤ x1 := hq1 ▸ Int.tdiv_nonneg hx1 (by norm_num)
  have e2 : Int.tdiv (x1 * 3) 4 = Int.fdiv (x1 * 3) 4 := by
    rw [Int.tdiv_eq_ediv (by linarith) (by norm_num), Int.fdiv_eq_ediv _ (by norm_num)]
  rw [← e2]
  generalize hq2 : Int.tdiv (x1 * 3) 4 = x2
  have hx2 : 0 ≤ x2 := hq2 ▸ Int.tdiv_nonneg (by linarith) (by norm_num)
  generalize hqf : J + 1401 + x2 + (-38) = fI
  have hfI : 0 ≤ fI := by omega
  generalize hqe : 4 * fI + 3 = eI
  have heI : 0 ≤ eI := by omega
  have hem : (0 : ℤ) ≤ eI % 1461 := Int.emod_nonneg eI (by norm_num)
  have e3 : Int.tdiv (eI % 1461) 4 = Int.fdiv (eI % 1461) 4 := by
    rw [Int.tdiv_eq_ediv hem (by norm_num), Int.fdiv_eq_ediv _ (by norm_num)]
  rw [← e3]
  generalize hqg : Int.tdiv (eI % 1461) 4 = gI
  have hgI : 0 ≤ gI := hqg ▸ Int.tdiv_nonneg hem (by norm_num)
  generalize hqh : 5 * gI + 2 = hI
  have hhI : 0 ≤ hI := by omega
  have hhm : (0 : ℤ) ≤ hI % 153 := Int.emod_nonneg hI (by norm_num)
  have e4 : Int.tdiv (hI % 153) 5 = Int.fdiv (hI % 153) 5 := by
    rw [Int.tdiv_eq_ediv hhm (by norm_num), Int.fdiv_eq_ediv _ (by norm_num)]
  rw [← e4]
  have e5 : Int.tdiv hI 153 = Int.fdiv hI 153 := by
    rw [Int.tdiv_eq_ediv hhI (by norm_num), Int.fdiv_eq_ediv _ (by norm_num)]
  rw [← e5]
  generalize hqM : (Int.tdiv hI 153 + 2) % 12 + 1 = MI
  have hMle : MI ≤ 12 := by
    have := Int.emod_lt_of_pos (Int.tdiv hI 153 + 2) (show (0:ℤ) < 12 by norm_num)
    omega
  have e6 : Int.tdiv eI 1461 = Int.fdiv eI 1461 := by
    rw [Int.tdiv_eq_ediv heI (by norm_num), Int.fdiv_eq_ediv _ (by norm_num)]
  rw [← e6]
  have e7 : Int.tdiv (14 - MI) 12 = Int.fdiv (14 - MI) 12 := by
    rw [Int.tdiv_eq_ediv (by omega) (by norm_num), Int.fdiv_eq_ediv _ (by norm_num)]
  rw [← e7]

/-- The month component always lies in 1..12 and the day component in 1..31,
for every integer input. -/
theorem julianInt_month_day_bounds (J : ℤ) :
    1 ≤ (julianInt J).2.1 ∧ (julianInt J).2.1 ≤ 12 ∧
      1 ≤ (julianInt J).2.2 ∧ (julianInt J).2.2 ≤ 31 := by
  simp only [julianInt]
  generalize 5 * Int.tdiv ((4 * (J + 1401 + Int.tdiv (Int.tdiv (4 * J + 274277) 146097 * 3) 4
      + (-38)) + 3) % 1461) 4 + 2 = hI
  have hM1 : (0 : ℤ) ≤ (Int.tdiv hI 153 + 2) % 12 := Int.emod_nonneg _ (by norm_num)
  have hM2 : (Int.tdiv hI 153 + 2) % 12 < 12 :=
    Int.emod_lt_of_pos _ (by norm_num)
  have hD0 : (0 : ℤ) ≤ hI % 153 := Int.emod_nonneg _ (by norm_num)
  have hD1 : hI % 153 < 153 := Int.emod_lt_of_pos _ (by norm_num)
  have hDt0 : (0 : ℤ) ≤ Int.tdiv (hI % 153) 5 := Int.tdiv_nonneg hD0 (by norm_num)
  have hDt1 : Int.tdiv (hI % 153) 5 ≤ 30 := by
    rw [Int.tdiv_eq_ediv hD0 (by norm_num)]
    calc hI % 153 / 5 ≤ 152 / 5 := Int.ediv_le_ediv (by norm_num) (by omega)
      _ = 30 := by decide
  refine ⟨by omega, by omega, by omega, by omega⟩

/-- `julianDate` on an integer argument, in terms of the integer transform. -/
theorem julianDate_intCast (n : ℤ) :
    julianDate ((n : ℤ) : ℚ) =
      if isValidDate (julianInt n).1 (julianInt n).2.1 (julianInt n).2.2
      then some (julianInt n) else none := by
  rw [julianDate, julian_to_ymd_intCast]

/-! ## Lemmas: the custom float codec -/

theorem bitsToNat_ten (b0 b1 b2 b3 b4 b5 b6 b7 b8 b9 : Bool) :
    bitsToNat [b0, b1, b2, b3, b4, b5, b6, b7, b8, b9] =
      512 * b0.toNat + 256 * b1.toNat + 128 * b2.toNat + 64 * b3.toNat +
      32 * b4.toNat + 16 * b5.toNat + 8 * b6.toNat + 4 * b7.toNat +
      2 * b8.toNat + b9.toNat := by
  revert b0 b1 b2 b3 b4 b5 b6 b7 b8 b9
  decide

theorem bitsToNat_six (b5 b4 b3 b2 b1 b0 : Bool) :
    bitsToNat [b5, b4, b3, b2, b1, b0] =
      32 * b5.toNat + 16 * b4.toNat + 8 * b3.toNat + 4 * b2.toNat +
      2 * b1.toNat + b0.toNat := by
  revert b5 b4 b3 b2 b1 b0
  decide

set_option maxRecDepth 4000 in
theorem bitRev10_eval : ∀ m : ℕ, m < 1024 → bitRev10 m =
    512 * (m.testBit 0).toNat + 256 * (m.testBit 1).toNat + 128 * (m.testBit 2).toNat +
    64 * (m.testBit 3).toNat + 32 * (m.testBit 4).toNat + 16 * (m.testBit 5).toNat +
    8 * (m.testBit 6).toNat + 4 * (m.testBit 7).toNat + 2 * (m.testBit 8).toNat +
    (m.testBit 9).toNat := by
  decide

theorem nat_lt64_testBits : ∀ q : ℕ, q < 64 → q =
    32 * (q.testBit 5).toNat + 16 * (q.testBit 4).toNat + 8 * (q.testBit 3).toNat +
    4 * (q.testBit 2).toNat + 2 * (q.testBit 1).toNat + (q.testBit 0).toNat := by
  decide

/-- The code's mantissa — the first ten reversed bits read MSB-first — is
the bit-reversal of the ten low bits of the input. -/
theorem mantissa_eq_bitRev (c : ℕ) :
    bitsToNat ((bits16 c).reverse.take 10) = bitRev10 (c % 1024) := by
  have e0 : (bits16 c).reverse.take 10 =
      [c.testBit 0, c.testBit 1, c.testBit 2, c.testBit 3, c.testBit 4,
       c.testBit 5, c.testBit 6, c.testBit 7, c.testBit 8, c.testBit 9] := rfl
  have ht : ∀ i, i < 10 → (c % 1024).testBit i = c.testBit i := by
    intro i hi
    rw [show (1024 : ℕ) = 2 ^ 10 by norm_num, Nat.testBit_mod_two_pow]
    simp [hi]
  rw [e0, bitsToNat_ten, bitRev10_eval (c % 1024) (Nat.mod_lt c (by norm_num))]
  rw [ht 0 (by norm_num), ht 1 (by norm_num), ht 2 (by norm_num), ht 3 (by norm_num),
      ht 4 (by norm_num), ht 5 (by norm_num), ht 6 (by norm_num), ht 7 (by norm_num),
      ht 8 (by norm_num), ht 9 (by norm_num)]

/-- The code's exponent — the remaining six reversed bits, reversed once
more — is the six high bits of the input in natural order. -/
theorem exponent_eq_high_bits {c : ℕ} (hc : c < 65536) :
    bitsToNat (((bits16 c).reverse.drop 10).reverse) = c / 1024 := by
  have e0 : ((bits16 c).reverse.drop 10).reverse =
      [c.testBit 15, c.testBit 14, c.testBit 13, c.testBit 12,
       c.testBit 11, c.testBit 10] := rfl
  have hq : c / 1024 < 64 := by omega
  have hsh : ∀ i : ℕ, (c / 1024).testBit i = c.testBit (10 + i) := by
    intro i
    rw [show (1024 : ℕ) = 2 ^ 10 by norm_num, ← Nat.shiftRight_eq_div_pow,
      Nat.testBit_shiftRight]
  rw [e0, bitsToNat_six]
  conv_rhs => rw [nat_lt64_testBits (c / 1024) hq]
  rw [hsh 0, hsh 1, hsh 2, hsh 3, hsh 4, hsh 5]

/-! ## Claim C1: lookup table vs bit-layout formula -/

/-- C1 (counterexample): at code 1024 the table/code value is `2^(-62)` but
the specification's bit-layout formula — the remaining six reversed bits
read as the exponent, with no second reversal — gives `2^(-31)`; the claimed
equality `uint16_to_ufloat16 c = spec formula c` fails at `c = 1024`. -/
theorem uint16_spec_formula_counterexample :
    uint16_to_ufloat16 1024 ≠ spec_ufloat16 1024 := by
  have h1 : uint16_to_ufloat16 1024
      = (1 + ((0 : ℕ) : ℚ) / 1024) * (2 : ℚ) ^ (((1 : ℕ) : ℤ) - 63) := rfl
  have h2 : spec_ufloat16 1024
      = (1 + ((0 : ℕ) : ℚ) / 1024) * (2 : ℚ) ^ (((32 : ℕ) : ℤ) - 63) := rfl
  have key : (2 : ℚ) ^ (-62 : ℤ) < (2 : ℚ) ^ (-31 : ℤ) :=
    zpow_lt_zpow_right₀ (by norm_num) (by norm_num)
  rw [h1, h2]
  have e1 : (((1 : ℕ) : ℤ) - 63) = (-62 : ℤ) := by norm_num
  have e2 : (((32 : ℕ) : ℤ) - 63) = (-31 : ℤ) := by norm_num
  rw [e1, e2]
  intro hcontra
  rw [show (1 + ((0 : ℕ) : ℚ) / 1024) = 1 by norm_num, one_mul, one_mul] at hcontra
  exact absurd hcontra (ne_of_lt key)

/-- C1 (amended): for every 16-bit code `c` the lookup table holds
`uint16_to_ufloat16 c`, and that value equals the amended bit-layout
formula: `(1 + bitRev10(c % 1024)/1024) * 2^((c / 1024) - 63)` — i.e. the
mantissa is the first 10 reversed bits read in order, while the remaining 6
bits must be reversed a second time (read least-significant-first), giving
the high 6 bits of `c` in natural order as the exponent. -/
theorem lut_eq_amended_formula (c : ℕ) (hc : c < 65536) :
    make_lut[c]? = some (uint16_to_ufloat16 c) ∧
    uint16_to_ufloat16 c = amended_ufloat16 c := by
  constructor
  · rw [make_lut, List.getElem?_map, List.getElem?_range (by omega : c < 2 ^ 16)]
    rfl
  · show (1 + (bitsToNat ((bits16 c).reverse.take 10) : ℚ) / 1024) *
        (2 : ℚ) ^ ((bitsToNat (((bits16 c).reverse.drop 10).reverse) : ℤ) - 63) =
      amended_ufloat16 c
    rw [mantissa_eq_bitRev, exponent_eq_high_bits hc]
    rfl

/-- C1 (witness): the amended statement instantiated at code 1000. -/
theorem lut_eq_amended_formula_witness :
    1000 < 65536 ∧
      (make_lut[1000]? = some (uint16_to_ufloat16 1000) ∧
        uint16_to_ufloat16 1000 = amended_ufloat16 1000) :=
  ⟨by norm_num, lut_eq_amended_formula 1000 (by norm_num)⟩

/-! ## Claim C4: intensity transform -/

/-- The float32 maximum is far above 1. -/
theorem one_lt_maxFloat32 : (1 : ℝ) < maxFloat32 := by
  rw [maxFloat32]
  have h1 : (2 : ℝ) ^ (-23 : ℤ) ≤ 1 := by
    rw [zpow_neg]
    rw [show ((23 : ℤ) : ℤ) = ((23 : ℕ) : ℤ) by norm_num, zpow_natCast]
    rw [inv_le_one_iff₀]
    right
    exact one_le_pow₀ (by norm_num)
  nlinarith [pow_pos (show (0:ℝ) < 2 by norm_num) 127,
    one_le_pow₀ (show (1:ℝ) ≤ 2 by norm_num) (n := 127)]

/-- C4: the default intensity transform replaces every value `v ≤ 1` by the
clipped `(ln(v + 2.44e-4) + 8.3) / 8.285`, maps the float32-maximum input
to exactly 0, and every output lies in `[0, 1]`. -/
theorem vol_intensity_transform_spec (v : ℝ) (hv : v ≤ 1) :
    vol_intensity_transform v
        = min 1 (max 0 ((Real.log (v + 2.44e-4) + 8.3) / 8.285)) ∧
    vol_intensity_transform maxFloat32 = 0 ∧
    ∀ w : ℝ, 0 ≤ vol_intensity_transform w ∧ vol_intensity_transform w ≤ 1 := by
  refine ⟨?_, ?_, ?_⟩
  · have hne : v ≠ maxFloat32 := by
      have := one_lt_maxFloat32
      intro hcontra
      rw [hcontra] at hv
      linarith
    simp only [vol_intensity_transform, clip01]
    rw [if_pos hv, if_neg hne]
  · simp only [vol_intensity_transform, clip01]
    rw [if_neg (not_le.mpr one_lt_maxFloat32)]
    simp
  · intro w
    simp only [vol_intensity_transform, clip01]
    constructor
    · exact le_min (by norm_num) (le_max_left 0 _)
    · exact min_le_left 1 _

/-- C4 (witness): the statement instantiated at `v = 0`. -/
theorem vol_intensity_transform_spec_witness :
    (0 : ℝ) ≤ 1 ∧
      (vol_intensity_transform 0
          = min 1 (max 0 ((Real.log ((0 : ℝ) + 2.44e-4) + 8.3) / 8.285)) ∧
        vol_intensity_transform maxFloat32 = 0 ∧
        ∀ w : ℝ, 0 ≤ vol_intensity_transform w ∧ vol_intensity_transform w ≤ 1) :=
  ⟨by norm_num, vol_intensity_transform_spec 0 (by norm_num)⟩

/-! ## Claim C5: the date codec -/

/-- C5 (counterexample): the code does not use floor semantics at each step:
Python `int(...)` truncates toward zero, and at `J = -68570` (where
`4*J + B < 0`) the code's output differs from the floor-division reference
transform — the code gives (-4899, 2, 29), the reference (-4900, 2, 28). -/
theorem julian_to_ymd_floor_counterexample :
    julian_to_ymd ((-68570 : ℤ) : ℚ) ≠ julianRef (-68570) := by
  rw [julian_to_ymd_intCast]
  decide

/-- C5 (amended): on every **nonnegative** integer input the truncating
divisions coincide with floor divisions, so `julian_to_ymd` agrees with the
reference transform there; in particular Julian day 2451545 decodes to
2000-01-01; and on every integer input the month lies in 1..12 and the day
in 1..31 (so the output is a constructible calendar date whenever the
day/month/year combination is possible for `datetime.date`). -/
theorem julian_to_ymd_amended (J : ℤ) (hJ : 0 ≤ J) :
    julian_to_ymd ((J : ℤ) : ℚ) = julianRef J ∧
    julian_to_ymd ((2451545 : ℤ) : ℚ) = (2000, 1, 1) ∧
    ∀ K : ℤ, 1 ≤ (julian_to_ymd ((K : ℤ) : ℚ)).2.1 ∧
      (julian_to_ymd ((K : ℤ) : ℚ)).2.1 ≤ 12 ∧
      1 ≤ (julian_to_ymd ((K : ℤ) : ℚ)).2.2 ∧
      (julian_to_ymd ((K : ℤ) : ℚ)).2.2 ≤ 31 := by
  refine ⟨?_, ?_, ?_⟩
  · rw [julian_to_ymd_intCast]
    exact julianInt_eq_ref hJ
  · rw [julian_to_ymd_intCast]
    decide
  · intro K
    rw [julian_to_ymd_intCast]
    exact julianInt_month_day_bounds K

/-- C5 (witness): the amended statement instantiated at the reference pair
`J = 2451545` (→ 2000-01-01). -/
theorem julian_to_ymd_amended_witness :
    (0 : ℤ) ≤ 2451545 ∧
      (julian_to_ymd ((2451545 : ℤ) : ℚ) = julianRef 2451545 ∧
        julian_to_ymd ((2451545 : ℤ) : ℚ) = (2000, 1, 1) ∧
        ∀ K : ℤ, 1 ≤ (julian_to_ymd ((K : ℤ) : ℚ)).2.1 ∧
          (julian_to_ymd ((K : ℤ) : ℚ)).2.1 ≤ 12 ∧
          1 ≤ (julian_to_ymd ((K : ℤ) : ℚ)).2.2 ∧
          (julian_to_ymd ((K : ℤ) : ℚ)).2.2 ≤ 31) :=
  ⟨by norm_num, julian_to_ymd_amended 2451545 (by norm_num)⟩

/-! ## Claim C6: birthdate decoding policy (volume pass) -/

/-- C6 (amended): in the type-9 patient branch of the **volume** pass
(the fundus pass lacks the 8-digit branch — see the counterexample), an
8-digit raw birthdate is recorded directly as its decimal string; any other
raw value is routed through `julian = raw/64 - 14558805` and the date
codec, a successful conversion being recorded and a failed one recorded as
`None`; the update is a total function, so no exception reaches the
caller. -/
theorem oct_birthdate_policy (st : PatState) (pd : PatientData) :
    ((toString pd.birthdate_raw).length = 8 →
      (octPatientUpdate st pd).birthdate
        = some (Birthdate.ymd (toString pd.birthdate_raw))) ∧
    ((toString pd.birthdate_raw).length ≠ 8 →
      ∀ d, julianDate ((pd.birthdate_raw : ℚ) / 64 - 14558805) = some d →
        (octPatientUpdate st pd).birthdate = some (Birthdate.date d)) ∧
    ((toString pd.birthdate_raw).length ≠ 8 →
      julianDate ((pd.birthdate_raw : ℚ) / 64 - 14558805) = none →
        (octPatientUpdate st pd).birthdate = none) := by
  refine ⟨?_, ?_, ?_⟩
  · intro h8
    simp [octPatientUpdate, oct_decode_birthdate, h8]
  · intro h8 d hd
    simp [octPatientUpdate, oct_decode_birthdate, h8, hd]
  · intro h8 hn
    simp [octPatientUpdate, oct_decode_birthdate, h8, hn]

/-- C6 (witness): an 8-digit raw value (19900101) is recorded directly. -/
theorem oct_birthdate_policy_witness :
    (toString (19900101 : ℕ)).length = 8 ∧
      (octPatientUpdate ⟨none, none, none, none, none⟩
          ⟨0, 0, 0, 0, 19900101⟩).birthdate
        = some (Birthdate.ymd (toString (19900101 : ℕ))) :=
  ⟨by decide, (oct_birthdate_policy ⟨none, none, none, none, none⟩
      ⟨0, 0, 0, 0, 19900101⟩).1 (by decide)⟩

/-- C6 (counterexample): the policy does not hold in **every** pass. In the
fundus pass (lines 376-387) there is no 8-digit branch: the 8-digit raw
value 10000000 is routed through the Julian interpretation
(10000000/64 - 14558805 = -14402555, far out of range), the conversion
fails, and the birthdate is left at its previous value — it is neither
recorded directly as "10000000" nor recorded as unknown (`None`). -/
theorem fundus_birthdate_claim_counterexample :
    (toString (10000000 : ℕ)).length = 8 ∧
    (fundusPatientUpdate ⟨none, none, none, some (Birthdate.ymd "19700101"), none⟩
        ⟨0, 0, 0, 0, 10000000⟩).birthdate = some (Birthdate.ymd "19700101") ∧
    (fundusPatientUpdate ⟨none, none, none, some (Birthdate.ymd "19700101"), none⟩
        ⟨0, 0, 0, 0, 10000000⟩).birthdate
      ≠ some (Birthdate.ymd (toString (10000000 : ℕ))) ∧
    (fundusPatientUpdate ⟨none, none, none, some (Birthdate.ymd "19700101"), none⟩
        ⟨0, 0, 0, 0, 10000000⟩).birthdate ≠ none := by
  have h0 : ((10000000 : ℕ) : ℚ) / 64 - 14558805 = ((-14402555 : ℤ) : ℚ) := by norm_num
  have hfail : julianDate (((10000000 : ℕ) : ℚ) / 64 - 14558805) = none := by
    rw [h0, julianDate_intCast]
    decide
  have hupd : (fundusPatientUpdate ⟨none, none, none, some (Birthdate.ymd "19700101"), none⟩
      ⟨0, 0, 0, 0, 10000000⟩).birthdate = some (Birthdate.ymd "19700101") := by
    unfold fundusPatientUpdate
    rw [hfail]
  refine ⟨by decide, hupd, ?_, ?_⟩
  · rw [hupd]
    decide
  · rw [hupd]
    decide

/-! ## Claim C10: non-atomic patient update in the fundus pass -/

/-- C10: the fundus-pass type-9 branch decodes the birthdate only via the
Julian interpretation, and when the conversion fails, the swallowed
exception leaves `birthdate` and `patient_id` at their previous values
while `sex`, `first_name` and `surname` have already been overwritten. -/
theorem fundus_patient_nonatomic (st : PatState) (pd : PatientData)
    (hfail : julianDate ((pd.birthdate_raw : ℚ) / 64 - 14558805) = none) :
    (fundusPatientUpdate st pd).sex = some pd.sex ∧
    (fundusPatientUpdate st pd).first_name = some pd.first_name ∧
    (fundusPatientUpdate st pd).surname = some pd.surname ∧
    (fundusPatientUpdate st pd).birthdate = st.birthdate ∧
    (fundusPatientUpdate st pd).patient_id = st.patient_id := by
  unfold fundusPatientUpdate
  rw [hfail]
  exact ⟨rfl, rfl, rfl, rfl, rfl⟩

/-- C10 (witness): raw value 0 decodes to Julian day -14558805, far outside
the constructible date range, so the conversion fails; the update keeps the
old birthdate and patient id while renaming the patient. -/
theorem fundus_patient_nonatomic_witness :
    julianDate (((0 : ℕ) : ℚ) / 64 - 14558805) = none ∧
      ((fundusPatientUpdate
            ⟨some 1, some 2, some 3, some (Birthdate.ymd "19700101"), some 4⟩
            ⟨5, 6, 7, 8, 0⟩).sex = some 5 ∧
        (fundusPatientUpdate
            ⟨some 1, some 2, some 3, some (Birthdate.ymd "19700101"), some 4⟩
            ⟨5, 6, 7, 8, 0⟩).first_name = some 6 ∧
        (fundusPatientUpdate
            ⟨some 1, some 2, some 3, some (Birthdate.ymd "19700101"), some 4⟩
            ⟨5, 6, 7, 8, 0⟩).surname = some 7 ∧
        (fundusPatientUpdate
            ⟨some 1, some 2, some 3, some (Birthdate.ymd "19700101"), some 4⟩
            ⟨5, 6, 7, 8, 0⟩).birthdate = some (Birthdate.ymd "19700101") ∧
        (fundusPatientUpdate
            ⟨some 1, some 2, some 3, some (Birthdate.ymd "19700101"), some 4⟩
            ⟨5, 6, 7, 8, 0⟩).patient_id = some 4) := by
  have h0 : ((0 : ℕ) : ℚ) / 64 - 14558805 = ((-14558805 : ℤ) : ℚ) := by norm_num
  have hfail : julianDate (((0 : ℕ) : ℚ) / 64 - 14558805) = none := by
    rw [h0, julianDate_intCast]
    decide
  exact ⟨hfail,
    fundus_patient_nonatomic ⟨some 1, some 2, some 3, some (Birthdate.ymd "19700101"), some 4⟩
      ⟨5, 6, 7, 8, 0⟩ hfail⟩

/-! ## Claims C7 and C8: the directory walker -/

theorem chain_head_ne_zero {recAt : ℕ → Option MainDirRec} {c : ℕ} {l : List ℕ}
    (h : Chain recAt (c :: l)) : c ≠ 0 := by
  cases l with
  | nil => exact h.1
  | cons c2 rest => exact h.1

theorem chain_tail {recAt : ℕ → Option MainDirRec} {c : ℕ} {l : List ℕ}
    (h : Chain recAt (c :: l)) (hl : l ≠ []) : Chain recAt l := by
  cases l with
  | nil => exact absurd rfl hl
  | cons c2 rest => exact h.2.2

theorem chain_unique {recAt : ℕ → Option MainDirRec} :
    ∀ (l1 : List ℕ) (c : ℕ) (l2 : List ℕ),
      Chain recAt (c :: l1) → Chain recAt (c :: l2) → l1 = l2 := by
  intro l1
  induction l1 with
  | nil =>
    intro c l2 h1 h2
    cases l2 with
    | nil => rfl
    | cons c2 rest =>
      obtain ⟨-, r, hr, hprev⟩ := h1
      obtain ⟨-, ⟨r', hr', hprev'⟩, hrest⟩ := h2
      rw [hr] at hr'
      cases hr'
      have hz : c2 = 0 := by rw [← hprev', hprev]
      exact absurd hz (chain_head_ne_zero hrest)
  | cons c2 rest ih =>
    intro c l2 h1 h2
    cases l2 with
    | nil =>
      obtain ⟨-, ⟨r, hr, hprev⟩, hrest⟩ := h1
      obtain ⟨-, r', hr', hprev'⟩ := h2
      rw [hr] at hr'
      cases hr'
      have hz : c2 = 0 := by rw [← hprev, hprev']
      exact absurd hz (chain_head_ne_zero hrest)
    | cons c2' rest' =>
      obtain ⟨-, ⟨r, hr, hprev⟩, hrest⟩ := h1
      obtain ⟨-, ⟨r', hr', hprev'⟩, hrest'⟩ := h2
      rw [hr] at hr'
      cases hr'
      have hc2 : c2 = c2' := by rw [← hprev, hprev']
      subst hc2
      rw [ih c2 rest' hrest hrest']

theorem chain_of_append {recAt : ℕ → Option MainDirRec} :
    ∀ (pre suffix : List ℕ), suffix ≠ [] → Chain recAt (pre ++ suffix) →
      Chain recAt suffix := by
  intro pre
  induction pre with
  | nil => intro suffix _ h; exact h
  | cons a pre' ih =>
    intro suffix hne h
    have hne' : pre' ++ suffix ≠ [] := by
      intro hcontra
      exact hne (List.append_eq_nil.mp hcontra).2
    exact ih suffix hne (chain_tail h hne')

theorem chain_nodup {recAt : ℕ → Option MainDirRec} :
    ∀ l : List ℕ, Chain recAt l → l.Nodup := by
  intro l
  induction l with
  | nil => intro h; exact absurd h id
  | cons c rest ih =>
    intro h
    rcases List.eq_nil_or_concat rest with rfl | -
    · simp
    · refine List.nodup_cons.mpr ⟨?_, ?_⟩
      · intro hmem
        obtain ⟨pre, post, rfl⟩ := List.append_of_mem hmem
        have hsub : Chain recAt (c :: post) := by
          have : Chain recAt ((c :: pre) ++ (c :: post)) := by simpa using h
          exact chain_of_append (c :: pre) (c :: post) (by simp) this
        have heq := chain_unique (pre ++ c :: post) c post h hsub
        have : (pre ++ c :: post).length = post.length := by rw [heq]
        simp at this
        omega
      · rcases rest with - | ⟨c2, rest'⟩
        · simp
        · exact ih h.2.2

/-- C7: for every finite directory chain — a nonempty offset list in which
each record's `prev` points at the next offset and the last record's `prev`
is 0 — the constructor's `while current != 0` loop terminates after exactly
`K` iterations (any fuel of at least `K` steps completes), appends exactly
the chain's offsets in order, and the offset list has no duplicates; a
one-record chain with `prev == 0` yields a one-element offset list. -/
theorem directory_walk_chain (recAt : ℕ → Option MainDirRec) (c : ℕ) (cs : List ℕ)
    (hchain : Chain recAt (c :: cs)) (fuel : ℕ) (hfuel : (c :: cs).length ≤ fuel) :
    dirWalk recAt fuel c = some (Except.ok (c :: cs)) ∧ (c :: cs).Nodup := by
  refine ⟨?_, chain_nodup _ hchain⟩
  induction cs generalizing c fuel with
  | nil =>
    obtain ⟨hc, r, hr, hprev⟩ := hchain
    obtain ⟨f, rfl⟩ : ∃ f, fuel = f + 1 := by
      cases fuel with
      | zero => simp at hfuel
      | succ f => exact ⟨f, rfl⟩
    rw [dirWalk]
    simp only [if_neg hc, hr]
    rw [hprev]
    cases f <;> rfl
  | cons c2 rest ih =>
    obtain ⟨hc, ⟨r, hr, hprev⟩, hrest⟩ := hchain
    obtain ⟨f, rfl⟩ : ∃ f, fuel = f + 1 := by
      cases fuel with
      | zero => simp at hfuel
      | succ f => exact ⟨f, rfl⟩
    have hlen : (c2 :: rest).length ≤ f := by
      simp only [List.length_cons] at hfuel ⊢
      omega
    rw [dirWalk]
    simp only [if_neg hc, hr]
    rw [hprev, ih c2 hrest f hlen]
    rfl

/-- C7 (witness): the trivial chain — one record at offset 5 with
`prev == 0` — yields the one-element offset list `[5]`. -/
theorem directory_walk_chain_witness :
    Chain (fun off => if off = 5 then some ⟨5, 0⟩ else none) [5] ∧
      ([5] : List ℕ).length ≤ 1 ∧
      (dirWalk (fun off => if off = 5 then some ⟨5, 0⟩ else none) 1 5
          = some (Except.ok [5]) ∧ ([5] : List ℕ).Nodup) := by
  have hchain : Chain (fun off : ℕ => if off = 5 then some (⟨5, 0⟩ : MainDirRec) else none)
      [5] := ⟨by decide, ⟨5, 0⟩, rfl, rfl⟩
  exact ⟨hchain, by norm_num,
    directory_walk_chain (fun off => if off = 5 then some ⟨5, 0⟩ else none) 5 [] hchain 1
      (by norm_num)⟩

/-- C8 (counterexample): with an existing file whose first main directory
points at offset 5 but whose record at offset 5 cannot be parsed,
construction surfaces the parse error to the caller — so "file missing" is
not the only fatal condition, and a malformed record during traversal is
not treated as the traversal's natural end. -/
theorem e2e_init_counterexample :
    e2e_init true (some ⟨5, 0⟩) (fun _ => none) 10
      = some (Except.error InitError.parseError) := rfl

/-- C8 (amended): construction fails with `FileNotFoundError` exactly when
the file is missing; in addition, a main-directory record that fails to
parse during the back-pointer traversal propagates an (uncaught) parse
error to the caller — there is no natural-end handling; traversal otherwise
follows `prev` pointers from `firstRec.current`. -/
theorem e2e_init_amended (firstRec : Option MainDirRec)
    (recAt : ℕ → Option MainDirRec) (fuel : ℕ) (c : ℕ)
    (hc : c ≠ 0) (hn : recAt c = none) :
    e2e_init false firstRec recAt fuel = some (Except.error InitError.fileNotFound) ∧
    dirWalk recAt (fuel + 1) c = some (Except.error InitError.parseError) ∧
    ∀ md : MainDirRec, e2e_init true (some md) recAt fuel
      = dirWalk recAt fuel md.current := by
  refine ⟨rfl, ?_, fun md => rfl⟩
  rw [dirWalk, if_neg hc, hn]

/-- C8 (witness): the amended statement at a concrete unparseable-record
configuration. -/
theorem e2e_init_amended_witness :
    (5 : ℕ) ≠ 0 ∧ (fun _ : ℕ => (none : Option MainDirRec)) 5 = none ∧
      (e2e_init false none (fun _ : ℕ => none) 3
          = some (Except.error InitError.fileNotFound) ∧
        dirWalk (fun _ : ℕ => none) (3 + 1) 5
          = some (Except.error InitError.parseError) ∧
        ∀ md : MainDirRec, e2e_init true (some md) (fun _ : ℕ => none) 3
          = dirWalk (fun _ : ℕ => none) 3 md.current) :=
  ⟨by decide, rfl, e2e_init_amended none (fun _ => none) 3 5 (by decide) rfl⟩

/-! ## Claim C3: dispatcher error handling -/

/-- C3 (counterexample): a single chunk whose type-10004 (b-scan metadata)
payload fails to parse aborts the entire pass — the well-formed chunk after
it (`good 2`) is not recovered — contradicting "the overall pass never
aborts on a single bad chunk". -/
theorem dispatch_counterexample :
    dispatchVolume [VolumeChunk.good 1, VolumeChunk.bscanBad, VolumeChunk.good 2]
      = Except.error () := rfl

theorem volumePass_ok (cs : List VolumeChunk)
    (hb : VolumeChunk.bscanBad ∉ cs) (hz : VolumeChunk.imageZero ∉ cs) :
    ∀ acc warn, volumePass cs acc warn
      = Except.ok (acc ++ cs.filterMap goodPayload, warn + cs.countP isWarning) := by
  induction cs with
  | nil => intro acc warn; simp [volumePass]
  | cons ch rest ih =>
    intro acc warn
    have hb' : VolumeChunk.bscanBad ∉ rest := fun hmem => hb (List.mem_cons_of_mem _ hmem)
    have hz' : VolumeChunk.imageZero ∉ rest := fun hmem => hz (List.mem_cons_of_mem _ hmem)
    cases ch with
    | headerBad =>
      rw [show volumePass (VolumeChunk.headerBad :: rest) acc warn
          = volumePass rest acc warn from rfl, ih hb' hz']
      simp [goodPayload, isWarning, List.countP_cons]
    | patientBad =>
      rw [show volumePass (VolumeChunk.patientBad :: rest) acc warn
          = volumePass rest acc warn from rfl, ih hb' hz']
      simp [goodPayload, isWarning, List.countP_cons]
    | bscanBad => exact absurd (List.mem_cons_self _ _) hb
    | contourBad =>
      rw [show volumePass (VolumeChunk.contourBad :: rest) acc warn
          = volumePass rest acc (warn + 1) from rfl, ih hb' hz']
      simp [goodPayload, isWarning, List.countP_cons] <;> omega
    | imageBad =>
      rw [show volumePass (VolumeChunk.imageBad :: rest) acc warn
          = volumePass rest acc (warn + 1) from rfl, ih hb' hz']
      simp [goodPayload, isWarning, List.countP_cons] <;> omega
    | imageZero => exact absurd (List.mem_cons_self _ _) hz
    | good p =>
      rw [show volumePass (VolumeChunk.good p :: rest) acc warn
          = volumePass rest (acc ++ [p]) warn from rfl, ih hb' hz']
      simp [goodPayload, isWarning, List.countP_cons]

/-- C3 (amended): on any chunk stream with no b-scan-metadata payload
failure and no zero-pixel image chunk, the pass never aborts:
header-parse failures and patient-payload failures are skipped silently,
contour/image payload failures are skipped with exactly one non-fatal
warning each, and every well-formed chunk's payload is recovered, in
order. -/
theorem dispatch_amended (cs : List VolumeChunk)
    (hb : VolumeChunk.bscanBad ∉ cs) (hz : VolumeChunk.imageZero ∉ cs) :
    dispatchVolume cs = Except.ok (cs.filterMap goodPayload, cs.countP isWarning) := by
  rw [dispatchVolume, volumePass_ok cs hb hz]
  simp

/-- C3 (witness): a stream with a bad header, two good chunks and one bad
contour payload yields both good payloads and one warning. -/
theorem dispatch_amended_witness :
    VolumeChunk.bscanBad ∉ [VolumeChunk.headerBad, VolumeChunk.good 3,
        VolumeChunk.contourBad, VolumeChunk.good 4] ∧
    VolumeChunk.imageZero ∉ [VolumeChunk.headerBad, VolumeChunk.good 3,
        VolumeChunk.contourBad, VolumeChunk.good 4] ∧
    dispatchVolume [VolumeChunk.headerBad, VolumeChunk.good 3,
        VolumeChunk.contourBad, VolumeChunk.good 4] = Except.ok ([3, 4], 1) :=
  ⟨by decide, by decide,
    (dispatch_amended [VolumeChunk.headerBad, VolumeChunk.good 3,
        VolumeChunk.contourBad, VolumeChunk.good 4] (by decide) (by decide)).trans rfl⟩

/-! ## Claim C9: fundus repeat handling -/

theorem countP_lt_of_mem_not {β : Type} {l : List β} {P Q : β → Bool} {x : β}
    (hmem : x ∈ l) (hQ : Q x = true) (hP : P x = false)
    (himp : ∀ y, P y = true → Q y = true) : l.countP P < l.countP Q := by
  induction l with
  | nil => simp at hmem
  | cons a t ih =>
    rcases List.mem_cons.mp hmem with rfl | hmem'
    · rw [List.countP_cons, List.countP_cons, hQ, hP]
      have hmono : t.countP P ≤ t.countP Q := List.countP_mono_left (fun y _ => himp y)
      simp
      omega
    · rw [List.countP_cons, List.countP_cons]
      have hlt := ih hmem'
      by_cases hPa : P a = true
      · rw [hPa, himp a hPa]
        omega
      · rw [Bool.eq_false_iff.mpr hPa]
        simp only [Bool.false_eq_true, if_false]
        have hle : (0 : ℕ) ≤ if Q a = true then 1 else 0 := by positivity
        omega

/-- The `"_"`-append loop always reaches a fresh key: the suffix counts of
present keys extending the base strictly shrink at each step, so with fuel
larger than their count the returned suffix is unused (and positive). -/
theorem disambiguate_fresh (d : List (FundusKey × ℕ)) (k : SeriesKey) :
    ∀ fuel n,
      d.countP (fun kv => decide (kv.1.1 = k ∧ n < kv.1.2)) < fuel →
      dget d (k, disambiguate d k fuel n) = none ∧ n < disambiguate d k fuel n := by
  intro fuel
  induction fuel with
  | zero => intro n h; simp at h
  | succ fuel ih =>
    intro n h
    rw [disambiguate]
    by_cases hin : (dget d (k, n + 1)).isSome
    · rw [if_pos hin]
      obtain ⟨v, hv⟩ := Option.isSome_iff_exists.mp hin
      have hmem : ((k, n + 1), v) ∈ d := dget_mem hv
      have hlt : d.countP (fun kv => decide (kv.1.1 = k ∧ n + 1 < kv.1.2))
          < d.countP (fun kv => decide (kv.1.1 = k ∧ n < kv.1.2)) := by
        refine countP_lt_of_mem_not hmem ?_ ?_ ?_
        · simp
        · simp
        · intro y hy
          simp only [decide_eq_true_eq] at hy ⊢
          exact ⟨hy.1, by omega⟩
      have hrec := ih (n + 1) (by omega)
      exact ⟨hrec.1, by omega⟩
    · rw [if_neg hin]
      refine ⟨?_, by omega⟩
      cases hd : dget d (k, n + 1) with
      | none => rfl
      | some v => rw [hd] at hin; simp at hin

/-- C9: with `extract_scan_repeats = True`, a fundus image whose series key
is already present is stored under a `"_"`-suffixed fresh key: the earlier
entry is preserved, the new image appears under a distinct key with the
same base, and the dictionary grows by one (two images sharing a key yield
two distinct entries).  With `extract_scan_repeats = False`, the new image
overwrites the earlier one under the shared key and the dictionary size is
unchanged. -/
theorem fundus_repeat_policy (d : List (FundusKey × ℕ)) (k : SeriesKey)
    (img prev : ℕ) (hprev : dget d (k, 0) = some prev) :
    (∃ n, 0 < n ∧
      dget (fundusImageInsert true d k img) (k, n) = some img ∧
      dget (fundusImageInsert true d k img) (k, 0) = some prev ∧
      (fundusImageInsert true d k img).length = d.length + 1) ∧
    (dget (fundusImageInsert false d k img) (k, 0) = some img ∧
      (fundusImageInsert false d k img).length = d.length) := by
  have hsome : (dget d (k, 0)).isSome = true := by rw [hprev]; rfl
  constructor
  · have hcond : ((dget d (k, 0)).isSome && true) = true := by rw [hsome]; rfl
    have hfuel : d.countP (fun kv => decide (kv.1.1 = k ∧ 0 < kv.1.2)) < d.length + 1 := by
      have := List.countP_le_length (l := d) (fun kv => decide (kv.1.1 = k ∧ 0 < kv.1.2))
      omega
    have hfresh := disambiguate_fresh d k (d.length + 1) 0 hfuel
    refine ⟨disambiguate d k (d.length + 1) 0, hfresh.2, ?_, ?_, ?_⟩
    · rw [fundusImageInsert, if_pos hcond]
      exact dget_dinsert_self _ _ _
    · rw [fundusImageInsert, if_pos hcond]
      rw [dget_dinsert_ne _ _ _ _ (by
        intro hcontra
        have := congrArg Prod.snd hcontra
        simp only at this
        omega)]
      exact hprev
    · rw [fundusImageInsert, if_pos hcond]
      exact length_dinsert_none _ _ _ hfresh.1
  · have hcond : ((dget d (k, 0)).isSome && false) = false := by simp
    rw [fundusImageInsert, hcond]
    simp only [Bool.false_eq_true, if_false]
    exact ⟨dget_dinsert_self _ _ _, length_dinsert_isSome _ _ _ hsome⟩

/-- C9 (witness): starting from a dictionary holding image 7 under the base
key (1,2,3), inserting image 9 under the same series key. -/
theorem fundus_repeat_policy_witness :
    dget [((((1, 2, 3) : SeriesKey), 0), 7)] ((1, 2, 3), 0) = some 7 ∧
      ((∃ n, 0 < n ∧
        dget (fundusImageInsert true [((((1, 2, 3) : SeriesKey), 0), 7)] (1, 2, 3) 9)
            ((1, 2, 3), n) = some 9 ∧
        dget (fundusImageInsert true [((((1, 2, 3) : SeriesKey), 0), 7)] (1, 2, 3) 9)
            ((1, 2, 3), 0) = some 7 ∧
        (fundusImageInsert true [((((1, 2, 3) : SeriesKey), 0), 7)] (1, 2, 3) 9).length
            = [((((1, 2, 3) : SeriesKey), 0), 7)].length + 1) ∧
      (dget (fundusImageInsert false [((((1, 2, 3) : SeriesKey), 0), 7)] (1, 2, 3) 9)
            ((1, 2, 3), 0) = some 9 ∧
        (fundusImageInsert false [((((1, 2, 3) : SeriesKey), 0), 7)] (1, 2, 3) 9).length
            = [((((1, 2, 3) : SeriesKey), 0), 7)].length)) :=
  ⟨rfl, fundus_repeat_policy [((((1, 2, 3) : SeriesKey), 0), 7)] (1, 2, 3) 9 7 rfl⟩

/-! ## Claim C2: the volume assembler -/

theorem pymax_foldl_some (l : List ℚ) :
    ∀ m : ℚ, ∃ m', l.foldl pymax (some m) = some m' ∧ (m' = m ∨ m' ∈ l) ∧ m ≤ m' ∧
      ∀ x ∈ l, x ≤ m' := by
  induction l with
  | nil => intro m; exact ⟨m, rfl, Or.inl rfl, le_refl m, by simp⟩
  | cons x t ih =>
    intro m
    by_cases hx : x > m
    · have hstep : pymax (some m) x = some x := by simp [pymax, hx]
      obtain ⟨m', hm', hmem, hle, hall⟩ := ih x
      refine ⟨m', ?_, ?_, ?_, ?_⟩
      · rw [List.foldl_cons, hstep, hm']
      · rcases hmem with rfl | hmem'
        · exact Or.inr (List.mem_cons_self _ _)
        · exact Or.inr (List.mem_cons_of_mem _ hmem')
      · linarith
      · intro y hy
        rcases List.mem_cons.mp hy with rfl | hy'
        · exact hle
        · exact hall y hy'
    · have hstep : pymax (some m) x = some m := by simp [pymax, hx]
      obtain ⟨m', hm', hmem, hle, hall⟩ := ih m
      refine ⟨m', ?_, ?_, ?_, ?_⟩
      · rw [List.foldl_cons, hstep, hm']
      · rcases hmem with rfl | hmem'
        · exact Or.inl rfl
        · exact Or.inr (List.mem_cons_of_mem _ hmem')
      · exact hle
      · intro y hy
        rcases List.mem_cons.mp hy with rfl | hy'
        · push_neg at hx
          linarith
        · exact hall y hy'

theorem volumeDict_foldl (entries : List SubDirEntry) :
    ∀ (d : List (SeriesKey × ℚ)) (k : SeriesKey),
      dget (entries.foldl volumeDictStep d) k
        = (halfList entries k).foldl pymax (dget d k) := by
  induction entries with
  | nil => intro d k; simp [halfList]
  | cons ent rest ih =>
    intro d k
    rw [List.foldl_cons, ih]
    by_cases hk : ent.key = k
    · rw [show halfList (ent :: rest) k = ((ent.slice_id : ℚ) / 2) :: halfList rest k by
        simp [halfList, List.filter_cons, hk]]
      rw [List.foldl_cons]
      have hstep : dget (volumeDictStep d ent) k
          = pymax (dget d k) ((ent.slice_id : ℚ) / 2) := by
        subst hk
        simp only [volumeDictStep]
        cases hd : dget d ent.key with
        | none => exact dget_dinsert_self _ _ _
        | some m =>
          show dget (if (ent.slice_id : ℚ) / 2 > m
              then dinsert d ent.key ((ent.slice_id : ℚ) / 2) else d) ent.key
            = if (ent.slice_id : ℚ) / 2 > m
              then some ((ent.slice_id : ℚ) / 2) else some m
          by_cases hgt : (ent.slice_id : ℚ) / 2 > m
          · rw [if_pos hgt, if_pos hgt]
            exact dget_dinsert_self _ _ _
          · rw [if_neg hgt, if_neg hgt]
            exact hd
      rw [hstep]
    · rw [show halfList (ent :: rest) k = halfList rest k by
        simp [halfList, List.filter_cons, hk]]
      have hstep : dget (volumeDictStep d ent) k = dget d k := by
        have hne : k ≠ ent.key := fun hcontra => hk hcontra.symm
        simp only [volumeDictStep]
        cases hd : dget d ent.key with
        | none => exact dget_dinsert_ne _ _ _ _ hne
        | some m =>
          show dget (if (ent.slice_id : ℚ) / 2 > m
              then dinsert d ent.key ((ent.slice_id : ℚ) / 2) else d) k = dget d k
          by_cases hgt : (ent.slice_id : ℚ) / 2 > m
          · rw [if_pos hgt]
            exact dget_dinsert_ne _ _ _ _ hne
          · rw [if_neg hgt]
      rw [hstep]

theorem volumeDict_eq (entries : List SubDirEntry) (k : SeriesKey) :
    dget (volumeDict entries) k = (halfList entries k).foldl pymax none := by
  rw [volumeDict, volumeDict_foldl]
  rfl

theorem volumeDict_none_iff (entries : List SubDirEntry) (k : SeriesKey) :
    dget (volumeDict entries) k = none ↔ halfList entries k = [] := by
  rw [volumeDict_eq]
  cases hl : halfList entries k with
  | nil => simp
  | cons x t =>
    rw [List.foldl_cons, show pymax none x = some x from rfl]
    obtain ⟨m', hm', -, -, -⟩ := pymax_foldl_some t x
    rw [hm']
    simp

/-- The directory pass tracks, per series key, the maximum halved slice id
seen for that key. -/
theorem volumeDict_max (entries : List SubDirEntry) (k : SeriesKey) (m : ℚ)
    (h : dget (volumeDict entries) k = some m) :
    m ∈ halfList entries k ∧ ∀ x ∈ halfList entries k, x ≤ m := by
  rw [volumeDict_eq] at h
  cases hl : halfList entries k with
  | nil => rw [hl] at h; simp at h
  | cons x t =>
    rw [hl, List.foldl_cons, show pymax none x = some x from rfl] at h
    obtain ⟨m', hm', hmem, hle, hall⟩ := pymax_foldl_some t x
    rw [hm'] at h
    cases h
    constructor
    · rcases hmem with rfl | hmem'
      · exact List.mem_cons_self _ _
      · exact List.mem_cons_of_mem _ hmem'
    · intro y hy
      rcases List.mem_cons.mp hy with rfl | hy'
      · exact hle
      · exact hall y hy'

theorem volumeDict_keys_nodup (entries : List SubDirEntry) :
    (dkeys (volumeDict entries)).Nodup := by
  suffices h : ∀ d : List (SeriesKey × ℚ), (dkeys d).Nodup →
      (dkeys (entries.foldl volumeDictStep d)).Nodup by
    exact h [] (by simp [dkeys])
  induction entries with
  | nil => intro d hd; exact hd
  | cons ent rest ih =>
    intro d hd
    rw [List.foldl_cons]
    apply ih
    simp only [volumeDictStep]
    cases hq : dget d ent.key with
    | none =>
      show (dkeys (dinsert d ent.key ((ent.slice_id : ℚ) / 2))).Nodup
      rw [dkeys_dinsert_none d ent.key _ hq]
      have hnm : ent.key ∉ dkeys d := (dget_eq_none_iff d ent.key).mp hq
      rw [List.nodup_append]
      refine ⟨hd, by simp, ?_⟩
      intro a ha hb
      simp only [List.mem_singleton] at hb
      subst hb
      exact hnm ha
    | some m =>
      show (dkeys (if (ent.slice_id : ℚ) / 2 > m
          then dinsert d ent.key ((ent.slice_id : ℚ) / 2) else d)).Nodup
      by_cases hgt : (ent.slice_id : ℚ) / 2 > m
      · rw [if_pos hgt, dkeys_dinsert_isSome d ent.key _ (by rw [hq]; rfl)]
        exact hd
      · rw [if_neg hgt]
        exact hd

theorem dget_allocVolumes (vd : List (SeriesKey × ℚ)) (hnd : (dkeys vd).Nodup)
    (k : SeriesKey) :
    dget (allocVolumes vd) k = match dget vd k with
      | some m => if m > 0 then
          some (List.replicate (pyInt (m + 1)).toNat (none : Option ℕ)) else none
      | none => none := by
  induction vd with
  | nil => rfl
  | cons kv rest ih =>
    have hnd' : (dkeys rest).Nodup := (List.nodup_cons.mp hnd).2
    have hnm : kv.1 ∉ dkeys rest := (List.nodup_cons.mp hnd).1
    by_cases hk : kv.1 = k
    · subst hk
      rw [show dget (kv :: rest) kv.1 = some kv.2 by simp [dget]]
      by_cases hpos : kv.2 > 0
      · rw [show allocVolumes (kv :: rest)
            = (kv.1, List.replicate (pyInt (kv.2 + 1)).toNat none) :: allocVolumes rest by
          simp [allocVolumes, hpos]]
        rw [show dget ((kv.1, List.replicate (pyInt (kv.2 + 1)).toNat (none : Option ℕ))
            :: allocVolumes rest) kv.1
            = some (List.replicate (pyInt (kv.2 + 1)).toNat none) by simp [dget]]
        show some (List.replicate (pyInt (kv.2 + 1)).toNat (none : Option ℕ))
          = if kv.2 > 0 then
              some (List.replicate (pyInt (kv.2 + 1)).toNat (none : Option ℕ)) else none
        rw [if_pos hpos]
      · rw [show allocVolumes (kv :: rest) = allocVolumes rest by simp [allocVolumes, hpos]]
        rw [ih hnd', (dget_eq_none_iff rest kv.1).mpr hnm]
        show (none : Option (List (Option ℕ)))
          = if kv.2 > 0 then
              some (List.replicate (pyInt (kv.2 + 1)).toNat (none : Option ℕ)) else none
        rw [if_neg hpos]
    · rw [show dget (kv :: rest) k = dget rest k by simp [dget, hk]]
      by_cases hpos : kv.2 > 0
      · rw [show allocVolumes (kv :: rest)
            = (kv.1, List.replicate (pyInt (kv.2 + 1)).toNat none) :: allocVolumes rest by
          simp [allocVolumes, hpos]]
        rw [show dget ((kv.1, List.replicate (pyInt (kv.2 + 1)).toNat (none : Option ℕ))
            :: allocVolumes rest) k = dget (allocVolumes rest) k by simp [dget, hk]]
        exact ih hnd'
      · rw [show allocVolumes (kv :: rest) = allocVolumes rest by simp [allocVolumes, hpos]]
        exact ih hnd'

theorem allocVolumes_keys_sublist (vd : List (SeriesKey × ℚ)) :
    List.Sublist (dkeys (allocVolumes vd)) (dkeys vd) := by
  induction vd with
  | nil => simp [allocVolumes, dkeys]
  | cons kv rest ih =>
    by_cases hpos : kv.2 > 0
    · rw [show allocVolumes (kv :: rest)
          = (kv.1, List.replicate (pyInt (kv.2 + 1)).toNat none) :: allocVolumes rest by
        simp [allocVolumes, hpos]]
      exact List.Sublist.cons₂ _ ih
    · rw [show allocVolumes (kv :: rest) = allocVolumes rest by simp [allocVolumes, hpos]]
      exact List.Sublist.cons _ ih

theorem chunkImages_cons (c : OCTChunk) (rest : List OCTChunk) (k : SeriesKey) :
    chunkImages (c :: rest) k
      = if c.key = k then c.image :: chunkImages rest k else chunkImages rest k := by
  by_cases hk : c.key = k <;> simp [chunkImages, List.filter_cons, hk]

theorem chunkFold_vad (chunks : List OCTChunk) :
    ∀ (vad : List (SeriesKey × List (Option ℕ))) (add : List (SeriesKey × List ℕ))
      (k : SeriesKey),
      dget ((chunks.foldl chunkStep (vad, add)).1) k
        = (dget vad k).map (fun lst => applyWrites chunks k lst) := by
  induction chunks with
  | nil =>
    intro vad add k
    show dget vad k = (dget vad k).map (fun lst => applyWrites [] k lst)
    cases dget vad k
    · rfl
    · rfl
  | cons c rest ih =>
    intro vad add k
    rw [List.foldl_cons]
    cases hv : dget vad c.key with
    | some lst0 =>
      rw [show chunkStep (vad, add) c
          = (dinsert vad c.key (lst0.set (chunkIdx c) (some c.image)), add) by
        simp [chunkStep, hv]]
      rw [ih]
      by_cases hk : c.key = k
      · subst hk
        rw [dget_dinsert_self, hv]
        simp only [Option.map_some']
        rw [show applyWrites (c :: rest) c.key lst0
            = applyWrites rest c.key (lst0.set (chunkIdx c) (some c.image)) by
          simp [applyWrites]]
      · rw [dget_dinsert_ne _ _ _ _ (fun hcontra => hk hcontra.symm)]
        cases hvk : dget vad k with
        | none => rfl
        | some l =>
          simp only [Option.map_some']
          rw [show applyWrites (c :: rest) k l = applyWrites rest k l by
            simp [applyWrites, hk]]
    | none =>
      cases ha : dget add c.key with
      | some imgs =>
        rw [show chunkStep (vad, add) c
            = (vad, dinsert add c.key (imgs ++ [c.image])) by simp [chunkStep, hv, ha]]
        rw [ih]
        by_cases hk : c.key = k
        · subst hk
          rw [hv]
          rfl
        · cases hvk : dget vad k with
          | none => rfl
          | some l =>
            simp only [Option.map_some']
            rw [show applyWrites (c :: rest) k l = applyWrites rest k l by
              simp [applyWrites, hk]]
      | none =>
        rw [show chunkStep (vad, add) c
            = (vad, dinsert add c.key [c.image]) by simp [chunkStep, hv, ha]]
        rw [ih]
        by_cases hk : c.key = k
        · subst hk
          rw [hv]
          rfl
        · cases hvk : dget vad k with
          | none => rfl
          | some l =>
            simp only [Option.map_some']
            rw [show applyWrites (c :: rest) k l = applyWrites rest k l by
              simp [applyWrites, hk]]

theorem chunkFold_add (chunks : List OCTChunk) :
    ∀ (vad : List (SeriesKey × List (Option ℕ))) (add : List (SeriesKey × List ℕ))
      (k : SeriesKey),
      dget ((chunks.foldl chunkStep (vad, add)).2) k
        = if (dget vad k).isSome then dget add k
          else match dget add k with
            | some imgs => some (imgs ++ chunkImages chunks k)
            | none => if chunkImages chunks k = [] then none
                      else some (chunkImages chunks k) := by
  induction chunks with
  | nil =>
    intro vad add k
    show dget add k = if (dget vad k).isSome then dget add k
      else match dget add k with
        | some imgs => some (imgs ++ chunkImages [] k)
        | none => if chunkImages [] k = [] then none else some (chunkImages [] k)
    by_cases hv : (dget vad k).isSome
    · rw [if_pos hv]
    · rw [if_neg hv]
      cases dget add k
      · rfl
      · show _ = some (_ ++ chunkImages [] k)
        rw [show chunkImages [] k = [] from rfl, List.append_nil]
  | cons c rest ih =>
    intro vad add k
    rw [List.foldl_cons]
    cases hv : dget vad c.key with
    | some lst0 =>
      rw [show chunkStep (vad, add) c
          = (dinsert vad c.key (lst0.set (chunkIdx c) (some c.image)), add) by
        simp [chunkStep, hv]]
      rw [ih]
      by_cases hk : c.key = k
      · subst hk
        rw [dget_dinsert_self, hv]
        rfl
      · rw [dget_dinsert_ne _ _ _ _ (fun hcontra => hk hcontra.symm),
          chunkImages_cons, if_neg hk]
    | none =>
      cases ha : dget add c.key with
      | some imgs =>
        rw [show chunkStep (vad, add) c
            = (vad, dinsert add c.key (imgs ++ [c.image])) by simp [chunkStep, hv, ha]]
        rw [ih]
        by_cases hk : c.key = k
        · subst hk
          rw [hv, dget_dinsert_self, ha, chunkImages_cons, if_pos rfl]
          simp
        · rw [dget_dinsert_ne _ _ _ _ (fun hcontra => hk hcontra.symm),
            chunkImages_cons, if_neg hk]
      | none =>
        rw [show chunkStep (vad, add) c
            = (vad, dinsert add c.key [c.image]) by simp [chunkStep, hv, ha]]
        rw [ih]
        by_cases hk : c.key = k
        · subst hk
          rw [hv, dget_dinsert_self, ha, chunkImages_cons, if_pos rfl]
          simp
        · rw [dget_dinsert_ne _ _ _ _ (fun hcontra => hk hcontra.symm),
            chunkImages_cons, if_neg hk]

theorem chunkFold_vad_keys (chunks : List OCTChunk) :
    ∀ (vad : List (SeriesKey × List (Option ℕ))) (add : List (SeriesKey × List ℕ)),
      dkeys ((chunks.foldl chunkStep (vad, add)).1) = dkeys vad := by
  induction chunks with
  | nil => intro vad add; rfl
  | cons c rest ih =>
    intro vad add
    rw [List.foldl_cons]
    cases hv : dget vad c.key with
    | some lst0 =>
      rw [show chunkStep (vad, add) c
          = (dinsert vad c.key (lst0.set (chunkIdx c) (some c.image)), add) by
        simp [chunkStep, hv]]
      rw [ih, dkeys_dinsert_isSome vad c.key _ (by rw [hv]; rfl)]
    | none =>
      cases ha : dget add c.key with
      | some imgs =>
        rw [show chunkStep (vad, add) c
            = (vad, dinsert add c.key (imgs ++ [c.image])) by simp [chunkStep, hv, ha]]
        exact ih _ _
      | none =>
        rw [show chunkStep (vad, add) c
            = (vad, dinsert add c.key [c.image]) by simp [chunkStep, hv, ha]]
        exact ih _ _

theorem applyWrites_length (k : SeriesKey) :
    ∀ (chunks : List OCTChunk) (lst : List (Option ℕ)),
      (applyWrites chunks k lst).length = lst.length := by
  intro chunks
  induction chunks with
  | nil => intro lst; rfl
  | cons c rest ih =>
    intro lst
    rw [show applyWrites (c :: rest) k lst
        = applyWrites rest k
            (if c.key = k then lst.set (chunkIdx c) (some c.image) else lst) from rfl,
      ih]
    by_cases hk : c.key = k <;> simp [hk]

theorem lastWriteAt_foldl_acc (k : SeriesKey) (i : ℕ) :
    ∀ (chunks : List OCTChunk) (a : Option ℕ),
      chunks.foldl
          (fun acc c => if c.key = k ∧ chunkIdx c = i then some c.image else acc) a
        = match lastWriteAt chunks k i with
          | some x => some x
          | none => a := by
  intro chunks
  induction chunks with
  | nil => intro a; rfl
  | cons c rest ih =>
    intro a
    rw [List.foldl_cons]
    by_cases hc : c.key = k ∧ chunkIdx c = i
    · rw [if_pos hc]
      have hl : lastWriteAt (c :: rest) k i
          = match lastWriteAt rest k i with
            | some x => some x
            | none => some c.image := by
        rw [show lastWriteAt (c :: rest) k i
            = rest.foldl
                (fun acc c => if c.key = k ∧ chunkIdx c = i then some c.image else acc)
                (some c.image) by simp [lastWriteAt, hc]]
        rw [ih (some c.image)]
      rw [ih (some c.image), hl]
      cases lastWriteAt rest k i <;> rfl
    · rw [if_neg hc]
      have hl : lastWriteAt (c :: rest) k i = lastWriteAt rest k i := by
        simp [lastWriteAt, hc]
      rw [ih a, hl]

theorem applyWrites_getElem? (k : SeriesKey) (i : ℕ) :
    ∀ (chunks : List OCTChunk) (lst : List (Option ℕ)), i < lst.length →
      (applyWrites chunks k lst)[i]? = match lastWriteAt chunks k i with
        | some img => some (some img)
        | none => lst[i]? := by
  intro chunks
  induction chunks with
  | nil =>
    intro lst hi
    rfl
  | cons c rest ih =>
    intro lst hi
    rw [show applyWrites (c :: rest) k lst
        = applyWrites rest k
            (if c.key = k then lst.set (chunkIdx c) (some c.image) else lst) from rfl]
    by_cases hck : c.key = k
    · rw [if_pos hck]
      have hlen : i < (lst.set (chunkIdx c) (some c.image)).length := by simpa using hi
      rw [ih _ hlen]
      by_cases hidx : chunkIdx c = i
      · have hcond : c.key = k ∧ chunkIdx c = i := ⟨hck, hidx⟩
        have hl : lastWriteAt (c :: rest) k i
            = match lastWriteAt rest k i with
              | some x => some x
              | none => some c.image := by
          rw [show lastWriteAt (c :: rest) k i
              = rest.foldl
                  (fun acc c => if c.key = k ∧ chunkIdx c = i then some c.image else acc)
                  (some c.image) by simp [lastWriteAt, hcond]]
          rw [lastWriteAt_foldl_acc k i rest (some c.image)]
        rw [hl]
        cases lastWriteAt rest k i with
        | some x => rfl
        | none =>
          rw [hidx, List.getElem?_set_self hi]
      · have hcond : ¬(c.key = k ∧ chunkIdx c = i) := fun hca => hidx hca.2
        have hl : lastWriteAt (c :: rest) k i = lastWriteAt rest k i := by
          simp [lastWriteAt, hcond]
        rw [hl]
        cases lastWriteAt rest k i with
        | some x => rfl
        | none => exact List.getElem?_set_ne hidx
    · rw [if_neg hck]
      have hcond : ¬(c.key = k ∧ chunkIdx c = i) := fun hca => hck hca.1
      rw [ih lst hi,
        show lastWriteAt (c :: rest) k i = lastWriteAt rest k i by
          simp [lastWriteAt, hcond]]

theorem filterMap_id_eq_range (l : List (Option ℕ)) :
    l.filterMap id = (List.range l.length).filterMap (fun i => (l[i]?).bind id) := by
  induction l with
  | nil => rfl
  | cons a t ih =>
    have hstep : (fun i => (((a :: t))[i]?).bind id) ∘ Nat.succ
        = fun i => ((t[i]?).bind id) := by
      funext i
      simp [Function.comp]
    rw [List.length_cons, List.range_succ_eq_map]
    conv_rhs => rw [List.filterMap_cons, List.filterMap_map]
    rw [hstep, ← ih]
    cases a with
    | some x => simp [List.filterMap_cons]
    | none => simp [List.filterMap_cons]

theorem stripped_eq_range (chunks : List OCTChunk) (k : SeriesKey) (L : ℕ) :
    (applyWrites chunks k (List.replicate L (none : Option ℕ))).filterMap id
      = (List.range L).filterMap (lastWriteAt chunks k) := by
  rw [filterMap_id_eq_range, applyWrites_length, List.length_replicate]
  apply List.filterMap_congr
  intro i hi
  have hi' : i < L := List.mem_range.mp hi
  rw [applyWrites_getElem? k i chunks _ (by simpa using hi')]
  cases hlw : lastWriteAt chunks k i with
  | some img => rfl
  | none =>
    rw [List.getElem?_replicate_of_lt hi']
    rfl

theorem dget_stripVolumes (vad : List (SeriesKey × List (Option ℕ)))
    (hnd : (dkeys vad).Nodup) (k : SeriesKey) :
    dget (stripVolumes vad) k = (dget vad k).bind
      (fun l => if l.filterMap id = [] then none else some (l.filterMap id)) := by
  induction vad with
  | nil => rfl
  | cons kv rest ih =>
    have hnd' : (dkeys rest).Nodup := (List.nodup_cons.mp hnd).2
    have hnm : kv.1 ∉ dkeys rest := (List.nodup_cons.mp hnd).1
    by_cases hk : kv.1 = k
    · subst hk
      rw [show dget (kv :: rest) kv.1 = some kv.2 by simp [dget]]
      by_cases hs : kv.2.filterMap id = []
      · rw [show stripVolumes (kv :: rest) = stripVolumes rest by simp [stripVolumes, hs]]
        rw [ih hnd', (dget_eq_none_iff rest kv.1).mpr hnm]
        show (none : Option (List ℕ))
          = if kv.2.filterMap id = [] then none else some (kv.2.filterMap id)
        rw [if_pos hs]
      · rw [show stripVolumes (kv :: rest)
            = (kv.1, kv.2.filterMap id) :: stripVolumes rest by simp [stripVolumes, hs]]
        rw [show dget ((kv.1, kv.2.filterMap id) :: stripVolumes rest) kv.1
            = some (kv.2.filterMap id) by simp [dget]]
        show some (kv.2.filterMap id)
          = if kv.2.filterMap id = [] then none else some (kv.2.filterMap id)
        rw [if_neg hs]
    · rw [show dget (kv :: rest) k = dget rest k by simp [dget, hk]]
      by_cases hs : kv.2.filterMap id = []
      · rw [show stripVolumes (kv :: rest) = stripVolumes rest by simp [stripVolumes, hs]]
        exact ih hnd'
      · rw [show stripVolumes (kv :: rest)
            = (kv.1, kv.2.filterMap id) :: stripVolumes rest by simp [stripVolumes, hs]]
        rw [show dget ((kv.1, kv.2.filterMap id) :: stripVolumes rest) k
            = dget (stripVolumes rest) k by simp [dget, hk]]
        exact ih hnd'

/-- C2 (amended): the directory pass records per series key the maximum
halved slice id seen (first two conjuncts), and the returned association of
series keys to slice lists satisfies, for every key `k`: if the directory
maximum for `k` is **positive**, `k`'s slices are the placeholder slots in
index order with never-written slots dropped (each slot holding the last
image written at index `int(slice_id/2)`), the volume being omitted when
empty; if `k` was never seen in the directory pass **or was seen only with
maximum halved slice id ≤ 0**, its decoded images are returned as an
additional volume in order of appearance.  The hypotheses delimit the
domain on which the embedding matches Python exactly: nonnegative slice ids
(no negative-index wraparound) and chunk indices within the directory bound
(no `IndexError`). -/
theorem read_oct_volume_assembler (entries : List SubDirEntry) (chunks : List OCTChunk)
    (hidx : ∀ c ∈ chunks, 0 ≤ c.slice_id)
    (hbound : ∀ c ∈ chunks, ∀ m, dget (volumeDict entries) c.key = some m →
      (c.slice_id : ℚ) / 2 ≤ m) :
    (∀ k m, dget (volumeDict entries) k = some m →
      m ∈ halfList entries k ∧ ∀ x ∈ halfList entries k, x ≤ m) ∧
    (∀ k, (dget (volumeDict entries) k = none ↔ halfList entries k = [])) ∧
    (∀ k, dget (read_oct_volume_model entries chunks) k
      = if expectedSlices entries chunks k = [] then none
        else some (expectedSlices entries chunks k)) := by
  refine ⟨fun k m h => volumeDict_max entries k m h,
    fun k => volumeDict_none_iff entries k, ?_⟩
  intro k
  have hnd0 : (dkeys (allocVolumes (volumeDict entries))).Nodup :=
    (allocVolumes_keys_sublist (volumeDict entries)).nodup (volumeDict_keys_nodup entries)
  unfold read_oct_volume_model
  rw [dget_append]
  rw [dget_stripVolumes _ (by rw [chunkFold_vad_keys]; exact hnd0) k]
  rw [chunkFold_vad chunks _ _ k, chunkFold_add chunks _ _ k]
  cases hvd : dget (volumeDict entries) k with
  | some m =>
    by_cases hpos : m > 0
    · have halloc : dget (allocVolumes (volumeDict entries)) k
          = some (List.replicate (pyInt (m + 1)).toNat (none : Option ℕ)) := by
        rw [dget_allocVolumes _ (volumeDict_keys_nodup entries) k, hvd]
        show (if m > 0 then _ else none) = _
        rw [if_pos hpos]
      have hexp : expectedSlices entries chunks k
          = (List.range (pyInt (m + 1)).toNat).filterMap (lastWriteAt chunks k) := by
        unfold expectedSlices
        rw [hvd]
        show (if m > 0 then _ else chunkImages chunks k) = _
        rw [if_pos hpos]
      rw [halloc, hexp]
      simp only [Option.map_some', Option.some_bind]
      rw [stripped_eq_range]
      by_cases hXe :
          (List.range (pyInt (m + 1)).toNat).filterMap (lastWriteAt chunks k) = []
      · rw [if_pos hXe]
        rfl
      · rw [if_neg hXe]
    · have halloc : dget (allocVolumes (volumeDict entries)) k = none := by
        rw [dget_allocVolumes _ (volumeDict_keys_nodup entries) k, hvd]
        show (if m > 0 then _ else none) = none
        rw [if_neg hpos]
      have hexp : expectedSlices entries chunks k = chunkImages chunks k := by
        unfold expectedSlices
        rw [hvd]
        show (if m > 0 then _ else chunkImages chunks k) = _
        rw [if_neg hpos]
      rw [halloc, hexp]
      rfl
  | none =>
    have halloc : dget (allocVolumes (volumeDict entries)) k = none := by
      rw [dget_allocVolumes _ (volumeDict_keys_nodup entries) k, hvd]
    have hexp : expectedSlices entries chunks k = chunkImages chunks k := by
      unfold expectedSlices
      rw [hvd]
    rw [halloc, hexp]
    rfl

/-- C2 (counterexample): a series key seen in the directory pass only with
slice id 0 (maximum halved index 0) is **not** allocated a placeholder
(`num_slices > 0` fails on line 123), so its decoded images are routed to
the additional-volumes dict: two images at slice 0 are both kept, in
appearance order, instead of the second overwriting the first in a
one-slot placeholder as the claim predicts. -/
theorem read_oct_volume_claim_counterexample :
    dget (read_oct_volume_model [⟨1, 1, 1, 0, 1, 0, 0⟩]
        [⟨(1, 1, 1), 0, 10⟩, ⟨(1, 1, 1), 0, 20⟩]) (1, 1, 1) = some [10, 20] ∧
    claimSlices [⟨1, 1, 1, 0, 1, 0, 0⟩]
        [⟨(1, 1, 1), 0, 10⟩, ⟨(1, 1, 1), 0, 20⟩] (1, 1, 1) = [20] ∧
    dget (read_oct_volume_model [⟨1, 1, 1, 0, 1, 0, 0⟩]
        [⟨(1, 1, 1), 0, 10⟩, ⟨(1, 1, 1), 0, 20⟩]) (1, 1, 1)
      ≠ some (claimSlices [⟨1, 1, 1, 0, 1, 0, 0⟩]
        [⟨(1, 1, 1), 0, 10⟩, ⟨(1, 1, 1), 0, 20⟩] (1, 1, 1)) := by
  have h1 : dget (read_oct_volume_model [⟨1, 1, 1, 0, 1, 0, 0⟩]
      [⟨(1, 1, 1), 0, 10⟩, ⟨(1, 1, 1), 0, 20⟩]) (1, 1, 1) = some [10, 20] := by
    unfold read_oct_volume_model
    have hvd0 : allocVolumes (volumeDict [⟨1, 1, 1, 0, 1, 0, 0⟩]) = [] := by
      rw [show volumeDict [(⟨1, 1, 1, 0, 1, 0, 0⟩ : SubDirEntry)]
          = [((1, 1, 1), (((0 : ℤ) : ℚ)) / 2)] from rfl]
      rw [show (((0 : ℤ) : ℚ)) / 2 = 0 by norm_num]
      rw [show allocVolumes [((1, 1, 1), (0 : ℚ))] = allocVolumes [] by
        simp [allocVolumes]]
      rfl
    rw [hvd0]
    rfl
  have h2 : claimSlices [⟨1, 1, 1, 0, 1, 0, 0⟩]
      [⟨(1, 1, 1), 0, 10⟩, ⟨(1, 1, 1), 0, 20⟩] (1, 1, 1) = [20] := by
    unfold claimSlices
    rw [show dget (volumeDict [(⟨1, 1, 1, 0, 1, 0, 0⟩ : SubDirEntry)]) (1, 1, 1)
        = some ((((0 : ℤ) : ℚ)) / 2) from rfl]
    show (List.range (pyInt ((((0 : ℤ) : ℚ)) / 2 + 1)).toNat).filterMap
        (lastWriteAt [⟨(1, 1, 1), 0, 10⟩, ⟨(1, 1, 1), 0, 20⟩] (1, 1, 1)) = [20]
    rw [show (((0 : ℤ) : ℚ)) / 2 + 1 = 1 by norm_num]
    rw [show (pyInt 1).toNat = 1 from rfl]
    have hci : ∀ img : ℕ, chunkIdx ⟨(1, 1, 1), 0, img⟩ = 0 := by
      intro img
      show (pyInt (((0 : ℤ) : ℚ) / 2)).toNat = 0
      rw [show (((0 : ℤ) : ℚ)) / 2 = 0 by norm_num]
      rfl
    have hlw : lastWriteAt [⟨(1, 1, 1), 0, 10⟩, ⟨(1, 1, 1), 0, 20⟩] (1, 1, 1) 0
        = some 20 := by
      unfold lastWriteAt
      rw [List.foldl_cons, if_pos ⟨rfl, hci 10⟩, List.foldl_cons,
        if_pos ⟨rfl, hci 20⟩]
      rfl
    rw [show List.range 1 = [0] from rfl, List.filterMap_cons, hlw]
    rfl
  refine ⟨h1, h2, ?_⟩
  rw [h1, h2]
  intro hcontra
  cases hcontra
  -- a list of length 2 cannot equal a list of length 1 — contradiction found
  -- by injectivity of `some` and list constructors

/-- C2 (witness): the amended statement at one directory entry with slice
id 2 (maximum halved index 1, so a two-slot placeholder) and one decoded
image chunk at slice id 2 (slot 1). -/
theorem read_oct_volume_assembler_witness :
    (∀ c ∈ [(⟨(1, 1, 1), 2, 5⟩ : OCTChunk)], 0 ≤ c.slice_id) ∧
    (∀ c ∈ [(⟨(1, 1, 1), 2, 5⟩ : OCTChunk)], ∀ m : ℚ,
      dget (volumeDict [⟨1, 1, 1, 2, 1, 0, 0⟩]) c.key = some m →
        (c.slice_id : ℚ) / 2 ≤ m) ∧
    ((∀ k m, dget (volumeDict [⟨1, 1, 1, 2, 1, 0, 0⟩]) k = some m →
      m ∈ halfList [⟨1, 1, 1, 2, 1, 0, 0⟩] k ∧
        ∀ x ∈ halfList [⟨1, 1, 1, 2, 1, 0, 0⟩] k, x ≤ m) ∧
    (∀ k, (dget (volumeDict [⟨1, 1, 1, 2, 1, 0, 0⟩]) k = none ↔
      halfList [⟨1, 1, 1, 2, 1, 0, 0⟩] k = [])) ∧
    (∀ k, dget (read_oct_volume_model [⟨1, 1, 1, 2, 1, 0, 0⟩]
        [(⟨(1, 1, 1), 2, 5⟩ : OCTChunk)]) k
      = if expectedSlices [⟨1, 1, 1, 2, 1, 0, 0⟩] [(⟨(1, 1, 1), 2, 5⟩ : OCTChunk)] k = []
        then none
        else some (expectedSlices [⟨1, 1, 1, 2, 1, 0, 0⟩]
          [(⟨(1, 1, 1), 2, 5⟩ : OCTChunk)] k))) := by
  have hidx : ∀ c ∈ [(⟨(1, 1, 1), 2, 5⟩ : OCTChunk)], 0 ≤ c.slice_id := by decide
  have hbound : ∀ c ∈ [(⟨(1, 1, 1), 2, 5⟩ : OCTChunk)], ∀ m : ℚ,
      dget (volumeDict [⟨1, 1, 1, 2, 1, 0, 0⟩]) c.key = some m →
        (c.slice_id : ℚ) / 2 ≤ m := by
    intro c hc m hm
    simp only [List.mem_singleton] at hc
    subst hc
    have hm' : some ((((2 : ℤ) : ℚ)) / 2) = some m := by
      rw [← hm]
      rfl
    cases hm'
    norm_num
  exact ⟨hidx, hbound,
    read_oct_volume_assembler [⟨1, 1, 1, 2, 1, 0, 0⟩] [(⟨(1, 1, 1), 2, 5⟩ : OCTChunk)]
      hidx hbound⟩

end E2E
